import Mathlib

/-!
Verification of the meta-checker crawl orchestrator against its
natural-language specification.

The definitions below are shallow embeddings of the JavaScript sources:
pure functions become Lean functions, filesystem state becomes explicit
arguments (file contents as strings, oracles for exclusive-create
outcomes), and JavaScript floating-point shares become exact rationals
built with `mkRat` (the thresholds 0.6, 0.3, 0.9 and 120 compared against
small-denominator quotients are decided identically by IEEE doubles and by
exact rationals).  JavaScript string primitives (`split`, `trim`,
`replace`, `toLowerCase`, `startsWith`) are implemented by structural
recursion over the character list of a Lean `String`, so every definition
evaluates inside the kernel; byte positions in bucket files are modelled
as character positions, which agree with UTF-8 byte offsets on the ASCII
URL data these files hold.
-/

namespace MetaChecker

/-! ### Character-level string toolkit

Structurally recursive counterparts of the JavaScript string methods used
by the sources.  `String.splitOn` and friends from core Lean use
well-founded recursion and do not reduce in the kernel, so the model
re-implements them over `List Char`. -/

/-- JavaScript `s.split(sep)` for a single-character separator, and the
basis of regex-class splits: cut the list at every character satisfying
`p`, keeping empty segments. -/
def splitPred (p : Char → Bool) : List Char → List (List Char)
  | [] => [[]]
  | c :: cs =>
    if p c then [] :: splitPred p cs
    else
      match splitPred p cs with
      | [] => [[c]]
      | q :: qs => (c :: q) :: qs

/-- `s.split(sep)` for one separator character. -/
def splitCh (sep : Char) (l : List Char) : List (List Char) :=
  splitPred (fun c => c = sep) l

/-- Join segments with a separator character (inverse of `splitCh` on
separator-free segments). -/
def joinCh (sep : Char) : List (List Char) → List Char
  | [] => []
  | [q] => q
  | q :: qs => q ++ sep :: joinCh sep qs

/-- JavaScript `s.replace(/\r\n/g, '\n')`. -/
def crlfToLf : List Char → List Char
  | '\r' :: '\n' :: rest => '\n' :: crlfToLf rest
  | c :: rest => c :: crlfToLf rest
  | [] => []

/-- JavaScript `s.trim()` (drop leading and trailing whitespace). -/
def trimL (l : List Char) : List Char :=
  ((l.dropWhile Char.isWhitespace).reverse.dropWhile Char.isWhitespace).reverse

/-- JavaScript `s.toLowerCase()` on the ASCII range. -/
def lowerL (l : List Char) : List Char := l.map Char.toLower

/-- JavaScript `s.startsWith(p)`. -/
def isPre (p : String) (l : List Char) : Bool := p.data.isPrefixOf l

/-- The insertion scan behind `Array.from(new Set(xs))`: keep each element
not seen before, in order. -/
def dedupFirstAux {α : Type} [DecidableEq α] (seen : List α) : List α → List α
  | [] => []
  | x :: xs =>
    if x ∈ seen then dedupFirstAux seen xs
    else x :: dedupFirstAux (x :: seen) xs

/-- JavaScript `Array.from(new Set(xs))`: drop duplicates, keeping the
first occurrence of each element in order. -/
def dedupFirst {α : Type} [DecidableEq α] (l : List α) : List α :=
  dedupFirstAux [] l

/-! ### C6 — URL Claim Ledger: `tryClaim` (src/discover/frontier.js lines 101-156)

`tryClaim` checks the completion marker, then loops at most `MC_LOCK_TRIES`
(default 60) times attempting `fs.openSync(lockPath, 'wx')`.  The outcome of
each attempt is external filesystem state, modelled by an oracle
`o : Nat → CreateOutcome` giving the result of the i-th `openSync` call.
`EEXIST` and unknown hard errors return null at once; only the transient
codes (`EBUSY`/`EPERM`/`EACCES`/`EPROTO`) sleep `MC_LOCK_SLEEP` (default
100 ms) and retry.  The result records whether a claim was granted, how
many `openSync` attempts ran, and how many sleeps were taken. -/

/-- Outcome of one exclusive-create (`openSync 'wx'`) attempt. -/
inductive CreateOutcome where
  | success
  | eexist
  | transientBusy
  | hardErr
deriving DecidableEq

/-- Result summary of the claim-acquisition loop. -/
structure ClaimAttempts where
  granted : Bool
  attempts : Nat
  sleeps : Nat
deriving DecidableEq

/-- Default of `parseInt(process.env.MC_LOCK_TRIES || '60', 10)`. -/
def mcLockTriesDefault : Nat := 60

/-- Default of `parseInt(process.env.MC_LOCK_SLEEP || '100', 10)`, in ms. -/
def mcLockSleepDefault : Nat := 100

/-- The retry loop of `tryClaim` (frontier.js lines 111-130): `i` attempts
already ran (all transient so far, one sleep each), `fuel` attempts remain. -/
def tryClaimGo (o : Nat → CreateOutcome) : Nat → Nat → ClaimAttempts
  | i, 0 => ⟨false, i, i⟩
  | i, fuel + 1 =>
    match o i with
    | .success => ⟨true, i + 1, i⟩
    | .eexist => ⟨false, i + 1, i⟩
    | .hardErr => ⟨false, i + 1, i⟩
    | .transientBusy => tryClaimGo o (i + 1) fuel

/-- `tryClaim` (frontier.js lines 101-130): if the `.done` marker exists the
function returns null before any `openSync`; otherwise it runs the bounded
exclusive-create loop. -/
def tryClaim (doneExists : Bool) (o : Nat → CreateOutcome) (maxTries : Nat) :
    ClaimAttempts :=
  if doneExists then ⟨false, 0, 0⟩ else tryClaimGo o 0 maxTries

/-! ### C7 — frontier-mode quiescence detection (src/discover/crawler.js lines 936-983)

One iteration of the crawl loop's idle tail.  `didWork` says whether any of
the `tryOneBucket` passes claimed work this cycle; `snap` is the frontier
snapshot fingerprint string `bytes:mtime:locks` (never empty — on error it
is the string `ERR`); `pendingLines` is `bucketStats(frontierDir).lines`;
`locks` is `countLocks(discoLocks)`.  The step updates the idle/stable
counters and selects one of: reset after work, exit on the quiescence
branch (line 964-969), exit on the settled branch (line 976-980), or keep
waiting. -/

/-- Mutable loop state of `crawlSite`'s frontier work loop. -/
structure LoopSt where
  idleCycles : Nat
  stableCycles : Nat
  lastSnap : String
deriving DecidableEq

/-- What one pass of the work/idle loop decides. -/
inductive StepOut where
  | workReset
  | exitQuiescent
  | exitSettled
  | keepWaiting
deriving DecidableEq

/-- One iteration of the `while (results.size < maxPages)` loop of
`crawlSite` (crawler.js lines 939-983), restricted to its control flow. -/
def loopStep (st : LoopSt) (didWork : Bool) (snap : String)
    (pendingLines locks : Nat) : LoopSt × StepOut :=
  if didWork then ({ st with idleCycles := 0, stableCycles := 0 }, .workReset)
  else
    let idle := st.idleCycles + 1
    let stable := if snap ≠ "" ∧ snap = st.lastSnap then st.stableCycles + 1 else 0
    let st' : LoopSt := ⟨idle, stable, snap⟩
    if pendingLines = 0 ∧ locks = 0 ∧ (5 ≤ stable ∨ 50 ≤ idle) then
      (st', .exitQuiescent)
    else if 60 ≤ stable then (st', .exitSettled)
    else (st', .keepWaiting)

/-- Stable-cycles counter after an idle pass (crawler.js line 958). -/
def nextStable (st : LoopSt) (snap : String) : Nat :=
  if snap ≠ "" ∧ snap = st.lastSnap then st.stableCycles + 1 else 0

/-- Idle-cycles counter after an idle pass (crawler.js line 957). -/
def nextIdle (st : LoopSt) : Nat := st.idleCycles + 1

/-! ### C1 — `claimNextBucket` (src/discover/frontier.js lines 263-319)

The bucket file content is `buf` (a BOM, if present, is stripped first);
`pos` is the persisted byte cursor read from the `.offset` file; `accept`
is the caller's accept predicate; `grants` abstracts the URL Claim Ledger:
`grants url = true` iff `tryClaim` returns a claim for `url`.  The result
is the claimed URL (if any) together with the cursor value the function
persists to the `.offset` file.  Per the specification's stated assumption
about the listing, `advanced` starts at 0 and accumulates the byte length
of every scanned line. -/

/-- Result of one `claimNextBucket` call: the claimed URL, if any, and the
cursor value persisted to the bucket's `.offset` file. -/
structure BucketClaim where
  url : Option String
  cursor : Nat
deriving DecidableEq

/-- The scan loop of `claimNextBucket` (frontier.js lines 292-318) over the
normalized tail's lines.  A single-element list is the last line (no
trailing newline counted); the final fallthrough persists `pos` unchanged,
exactly as source line 316 does. -/
def scanBucketLines (pos : Nat) (accept grants : String → Bool) :
    Nat → List (List Char) → BucketClaim
  | _, [] => ⟨none, pos⟩
  | advanced, line :: rest =>
    let inc := if rest.isEmpty then line.length else line.length + 1
    let advanced := advanced + inc
    let url : String := ⟨trimL line⟩
    if url = "" then scanBucketLines pos accept grants advanced rest
    else if ¬ accept url then scanBucketLines pos accept grants advanced rest
    else if grants url then ⟨some url, pos + advanced⟩
    else scanBucketLines pos accept grants advanced rest

/-- `claimNextBucket` (frontier.js lines 263-319): strip a leading BOM,
clamp the cursor to EOF, read the tail from the cursor, normalize CRLF to
LF, split into lines and scan. -/
def claimNextBucket (buf : String) (pos₀ : Nat) (accept grants : String → Bool) :
    BucketClaim :=
  let cs := match buf.data with
    | '\uFEFF' :: rest => rest
    | l => l
  let pos := if pos₀ > cs.length then cs.length else pos₀
  if cs.length ≤ pos then ⟨none, pos⟩
  else scanBucketLines pos accept grants 0 (splitCh '\n' (crlfToLf (cs.drop pos)))

/-! ### C3, C4 — input-shape classifier and Output Gate (src/utils/telemetry.js)

`sniffCsvShape` (telemetry.js lines 25-98) reads the input file; here the
file content is passed as a string and the missing-file case is the `none`
argument.  `validateOutputs` (telemetry.js lines 108-141) is the Output
Gate actually invoked by the `POST /config` handler (line 516), which
derives `valid = errors.length === 0` (line 518); the variant in
src/lib/output-gating.js is not required by any module.  A JS share
`count / n` compared against 0.6, 0.3 or 120 is modelled by the exact
rational `mkRat count n`. -/

/-- `isUrl` of telemetry.js lines 60-64: trimmed, then case-insensitive
`^(https?:)?\/\/` or `startsWith('/')` (the regex's bare-`//` alternative
is subsumed by `startsWith('/')`). -/
def isUrl (s : String) : Bool :=
  let t := trimL s.data
  if t.isEmpty then false
  else isPre "http://" (lowerL t) || isPre "https://" (lowerL t) || isPre "/" t

/-- Result record of `sniffCsvShape` (telemetry.js). -/
structure Shape where
  inputExists : Bool
  cols : Nat
  firstColUrlShare : ℚ
  firstRowIsUrl : Bool
  inferredRoles : List String
deriving DecidableEq

/-- The `exists:false` record returned on a missing/empty input. -/
def shapeNone : Shape := ⟨false, 0, 0, false, []⟩

/-- BOM strip, `\r?\n` split, keep trim-nonempty lines, first 50
(telemetry.js lines 41-44). -/
def sniffLines (raw : String) : List (List Char) :=
  let cs := match raw.data with
    | '\uFEFF' :: rest => rest
    | l => l
  (((splitCh '\n' (crlfToLf cs))).filter (fun l => ¬ (trimL l).isEmpty)).take 50

/-- Delimiter auto-detection (telemetry.js lines 50-55): among comma, tab,
semicolon pick the one splitting `lines[0]` into strictly more columns,
first candidate winning ties; returns the chosen delimiter and its count. -/
def detectDelim (firstLine : List Char) : Char × Nat :=
  [',', '\t', ';'].foldl
    (fun best d =>
      let c := (splitCh d firstLine).length
      if c > best.2 then (d, c) else best)
    (',', 0)

/-- Share of rows whose j-th cell is URL-ish (telemetry.js lines 66,
74-75); `mkRat` models the JS float quotient exactly. -/
def colUrlShare (rows : List (List String)) (j : Nat) : ℚ :=
  mkRat ((rows.filter (fun r => isUrl (r.getD j ""))).length) rows.length

/-- Average length of the j-th column (telemetry.js lines 77, 89). -/
def colAvgLen (rows : List (List String)) (j : Nat) : ℚ :=
  mkRat (rows.foldl (fun s r => s + (r.getD j "").length) 0) rows.length

/-- Role inference of `sniffCsvShape` (telemetry.js lines 70-92). -/
def inferRoles (cols : Nat) (rows : List (List String))
    (firstColUrlShare : ℚ) : List String :=
  if cols = 3 then ["url", "title", "description"]
  else if cols = 2 then
    if colUrlShare rows 0 > mkRat 3 5 ∧ colUrlShare rows 1 < mkRat 3 10 then
      ["url", if colAvgLen rows 1 < 120 then "title" else "description"]
    else if colUrlShare rows 0 < mkRat 3 10 ∧ colUrlShare rows 1 < mkRat 3 10 then
      ["title", "description"]
    else []
  else if cols = 1 then
    if firstColUrlShare ≥ mkRat 3 5 then ["url"]
    else [if colAvgLen rows 0 < 120 then "title" else "description"]
  else []

/-- The delimiter-split sample rows of `sniffCsvShape`
(telemetry.js line 57). -/
def sniffRows (raw : String) : List (List String) :=
  let lines := sniffLines raw
  match lines with
  | [] => []
  | l0 :: _ =>
    let (bestDelim, _) := detectDelim l0
    lines.map (fun l => (splitCh bestDelim l).map String.mk)

/-- The shape computed from a readable input file's content
(telemetry.js lines 41-94). -/
def sniffShapeOfRaw (raw : String) : Shape :=
  match sniffLines raw with
  | [] => shapeNone
  | l0 :: _ =>
    let cols := (detectDelim l0).2
    let rows := sniffRows raw
    let firstColUrlShare := colUrlShare rows 0
    let firstRowIsUrl := isUrl ((rows.headD []).getD 0 "")
    ⟨true, cols, firstColUrlShare, firstRowIsUrl,
      inferRoles cols rows firstColUrlShare⟩

/-- `sniffCsvShape` (telemetry.js lines 25-98) on the input file's content;
`none` stands for a missing/unreadable/empty file. -/
def sniffCsvShape (content : Option String) : Shape :=
  match content with
  | none => shapeNone
  | some raw => sniffShapeOfRaw raw

/-- One Output Gate error: `{key, reason}` (telemetry.js). -/
structure GateError where
  key : String
  reason : String
deriving DecidableEq

/-- The `existence_csv` push block of `validateOutputs` (telemetry.js
lines 117-123). -/
def existenceErrors (selected : List String) (shape : Shape) : List GateError :=
  if "existence_csv" ∈ selected then
    if shape.inputExists = false then
      [⟨"existence_csv", "No input file found for existence check."⟩]
    else if "url" ∉ shape.inferredRoles ∧ ¬ (shape.firstColUrlShare ≥ mkRat 3 5) then
      [⟨"existence_csv", "First column must look like URLs (>=60%)."⟩]
    else []
  else []

/-- The `comparison_csv` push block (telemetry.js lines 126-132). -/
def comparisonErrors (selected : List String) (shape : Shape) : List GateError :=
  if "comparison_csv" ∈ selected then
    if shape.inputExists = false then
      [⟨"comparison_csv", "Comparison requires an input file."⟩]
    else if "title" ∉ shape.inferredRoles ∧ "description" ∉ shape.inferredRoles then
      [⟨"comparison_csv", "Need a title and/or description column detected."⟩]
    else []
  else []

/-- The no-input push block (telemetry.js lines 134-138). -/
def noInputErrors (selected : List String) (shape : Shape) : List GateError :=
  if shape.inputExists = false then
    (if "existence_csv" ∈ selected then
      [⟨"existence_csv", "Forbidden when no input file is provided."⟩] else []) ++
    (if "comparison_csv" ∈ selected then
      [⟨"comparison_csv", "Forbidden when no input file is provided."⟩] else [])
  else []

/-- `validateOutputs(selected, shape)` (telemetry.js lines 108-141). -/
def validateOutputs (selected : List String) (shape : Shape) : List GateError :=
  existenceErrors selected shape ++ comparisonErrors selected shape
    ++ noInputErrors selected shape

/-- The `POST /config` handler's verdict: `valid = errors.length === 0`
(telemetry.js line 518), restricted to the Output Gate's errors. -/
def gateOk (selected : List String) (shape : Shape) : Bool :=
  (validateOutputs selected shape).isEmpty

/-! ### C10 — `parseCsv` (src/io/csv.js lines 15-33)

`parseCsv` reads the file, splits it on `\r?\n`, keeps trim-nonempty
lines, optionally skips a detected header line, splits each remaining line
into cells with `splitCsvLine`, and keeps rows with at least two cells.
The cell splitter is passed as the parameter `splitLine`; every statement
below is universally quantified over it, so it covers the concrete
`splitCsvLine` of csv.js. -/

/-- Substring test (the `RegExp.test` of an unanchored literal). -/
def containsSub (pat : List Char) : List Char → Bool
  | [] => pat.isPrefixOf []
  | c :: cs => pat.isPrefixOf (c :: cs) || containsSub pat cs

/-- An expected row `{expectedUrl, expectedTitle, expectedDesc}`; every
row object built by `parseCsv` carries these three keys in this insertion
order. -/
structure Row where
  expectedUrl : String
  expectedTitle : String
  expectedDesc : String
deriving DecidableEq

/-- `raw.split(/\r?\n/).filter(l => l.trim().length)` (csv.js line 17). -/
def csvLines (raw : String) : List (List Char) :=
  (splitCh '\n' (crlfToLf raw.data)).filter (fun l => ¬ (trimL l).isEmpty)

/-- `/url|title|description/i.test(line)` (csv.js line 20). -/
def headerish (l : List Char) : Bool :=
  containsSub "url".data (lowerL l) || containsSub "title".data (lowerL l)
    || containsSub "description".data (lowerL l)

/-- The per-line branch of `parseCsv` (csv.js lines 23-30): three or more
cells give a full row, exactly two give a row with empty `expectedUrl`,
fewer produce nothing. -/
def rowOfCells : List String → Option Row
  | u :: t :: d :: _ =>
    some ⟨⟨trimL u.data⟩, ⟨trimL t.data⟩, ⟨trimL d.data⟩⟩
  | [t, d] => some ⟨"", ⟨trimL t.data⟩, ⟨trimL d.data⟩⟩
  | _ => none

/-- `parseCsv(file, hasHeader)` (csv.js lines 15-33) on the file's content,
with the cell splitter as a parameter. -/
def parseCsv (splitLine : String → List String) (raw : String)
    (hasHeader : String) : List Row :=
  let lines := (csvLines raw).map String.mk
  match lines with
  | [] => []
  | l0 :: _ =>
    let start : Nat :=
      if hasHeader = "true" ∨ (hasHeader = "auto" ∧ headerish l0.data) then 1
      else 0
    ((lines.drop start).map splitLine).filterMap rowOfCells

/-! ### C5 — run-mode resolution (src/run.js lines 205-312)

The worker derives its telemetry mode at run.js line 309 as
`!inputExists ? 'no-input' : sitemapMode ? 'explicit-urls' : 'discovery'`.
`sitemapMode` is set by the input-mode resolution block (lines 236-296);
the model covers the `usingUrlsFile = false` path the claim is about.
`rows` always come from `parseCsv` (line 211), so each row is an object
whose `Object.keys` are `[expectedUrl, expectedTitle, expectedDesc]`:
`firstCell` reads `expectedUrl` and `sniffInputShape`'s column count is
the key count 3 whenever rows exist. -/

/-- `isUrlish` of run.js line 50 (no trimming). -/
def isUrlish (s : String) : Bool :=
  isPre "http://" (lowerL s.data) || isPre "https://" (lowerL s.data)
    || isPre "/" s.data

/-- `firstCell(row)` (run.js lines 53-60): the value of the first inserted
key of the row object, which is `expectedUrl`. -/
def firstCell (r : Row) : String := r.expectedUrl

/-- `Object.keys(sample).length` for a `parseCsv` row object. -/
def rowKeyCount : Nat := 3

/-- Shape record of `sniffInputShape` (run.js lines 71-80). -/
structure RunShape where
  mode : String
  cols : Nat
  firstColUrlShare : ℚ
  firstRowIsUrl : Bool
deriving DecidableEq

/-- `sniffInputShape(rows)` (run.js lines 71-80). -/
def sniffInputShape (rows : List Row) : RunShape :=
  match rows with
  | [] => ⟨"no-input", 0, 0, false⟩
  | r0 :: _ =>
    let firstCol := rows.map firstCell
    let share := mkRat (firstCol.filter isUrlish).length (max 1 firstCol.length)
    ⟨"has-input", rowKeyCount, share, isUrlish (firstCell r0)⟩

/-- `sniffInputForExplicitUrls` (run.js lines 82-119).  The rows are the
`parseCsv` result for the same input file; `normFn` abstracts the
same-origin URL normalization of lines 103-111 (external `new URL`
behavior).  The header names of a `parseCsv` row object never match
`/^url$/i`, so `hasUrlHeader` is false. -/
def sniffExplicitUrls (rows : List Row) (normFn : String → Option String) :
    Bool × List String :=
  match rows with
  | [] => (false, [])
  | _ :: _ =>
    let hasUrlHeader := false
    let firstCol := (rows.map (fun r => (⟨trimL (firstCell r).data⟩ : String))).filter
      (fun s => s ≠ "")
    let abs := firstCol.filter
      (fun s => isPre "http://" (lowerL s.data) || isPre "https://" (lowerL s.data))
    let ratio : ℚ :=
      if firstCol.length = 0 then 0 else mkRat abs.length firstCol.length
    let looksExplicit := hasUrlHeader || ratio ≥ mkRat 9 10
    if ¬ looksExplicit then (false, [])
    else
      let normalized := dedupFirst (abs.filterMap normFn)
      if normalized.isEmpty then (false, []) else (true, normalized)

/-- The input-mode resolution of `run` (run.js lines 236-296) followed by
the mode expression of line 309, for the `usingUrlsFile = false` path. -/
def deriveRunMode (inputExists forceFrontier : Bool) (rows : List Row)
    (explicit : Bool) : String :=
  let sitemap1 := (¬ forceFrontier) ∧ explicit
  let shape := if sitemap1 then (⟨"no-input", 0, 0, false⟩ : RunShape)
    else sniffInputShape rows
  let sitemapMode :=
    if sitemap1 then true
    else if inputExists ∧ shape.mode ≠ "no-input" then
      if (¬ forceFrontier) ∧ 3 ≤ shape.cols then true
      else if shape.cols = 1 then
        (¬ forceFrontier) ∧ shape.firstColUrlShare ≥ mkRat 3 5
      else if shape.cols = 2 then
        (¬ forceFrontier) ∧ (shape.firstRowIsUrl ∨ shape.firstColUrlShare ≥ mkRat 3 5)
      else false
    else false
  if ¬ inputExists then "no-input"
  else if sitemapMode then "explicit-urls"
  else "discovery"

/-- End-to-end mode resolution for a worker: parse the input file (if it
exists), run the explicit-URLs sniffer on the same rows, then derive the
mode (run.js lines 205-312). -/
def resolveRunMode (splitLine : String → List String)
    (normFn : String → Option String) (content : Option String)
    (forceFrontier : Bool) : String :=
  let inputExists := content.isSome
  let rows := match content with
    | some raw => parseCsv splitLine raw "auto"
    | none => []
  let explicit := (sniffExplicitUrls rows normFn).1
  deriveRunMode inputExists forceFrontier rows explicit

/-! ### C8 — three-tier title matching (src/match/matcher.js, src/io/reports.js)

`normalizeText` (normalize.js lines 1-7), token sets and Jaccard
similarity (matcher.js lines 3-11), the tiered matcher
`findByPrefixThenSimilarity` (matcher.js lines 19-39, here named
`findByPfxThenSimilarity`), and the classification step of `writeReports`
(reports.js lines 163-171).  `replace(/\s+/g,' ').trim()` is implemented
as joining the nonempty whitespace-separated words with single spaces,
which is the same function.  Sorting the fuzzy scores descending and
keeping the entries equal to the first one (matcher.js lines 33-37) is
implemented as keeping the entries equal to the maximum score. -/

/-- The character class `[’‘’']` replaced by an ASCII
apostrophe (normalize.js line 4). -/
def mapQuote (c : Char) : Char :=
  if c = '’' ∨ c = '‘' ∨ c = '\'' then '\'' else c

/-- `normalizeText` (normalize.js lines 1-7): lowercase, smart quotes to
apostrophes, whitespace collapsed, trimmed. -/
def normalizeText (s : String) : String :=
  ⟨joinCh ' '
    ((splitPred Char.isWhitespace ((lowerL s.data).map mapQuote)).filter
      (fun w => ¬ w.isEmpty))⟩

/-- Membership in the token class `[a-z0-9]` (matcher.js line 4). -/
def alnumLower (c : Char) : Bool :=
  ('a' ≤ c ∧ c ≤ 'z') ∨ ('0' ≤ c ∧ c ≤ '9')

/-- `tokens` (matcher.js lines 3-5): the set of nonempty
`[^a-z0-9]+`-separated tokens of the normalized title, as a
duplicate-free list. -/
def tokens (s : String) : List String :=
  dedupFirst
    (((splitPred (fun c => ¬ alnumLower c) (normalizeText s).data).filter
      (fun w => ¬ w.isEmpty)).map String.mk)

/-- `jaccard` (matcher.js lines 6-11). -/
def jaccard (a b : String) : ℚ :=
  let A := tokens a
  let B := tokens b
  let inter := (A.filter (fun t => B.contains t)).length
  let uni := A.length + B.length - inter
  if uni = 0 then 0 else mkRat inter uni

/-- A catalog page as the matcher sees it: normalized title and URL. -/
structure Page where
  titleN : String
  url : String
deriving DecidableEq

/-- Result of `findByPrefixThenSimilarity`: tier name, candidate list, and
the top fuzzy score when the fuzzy tier fired. -/
structure MatchResult where
  mtype : String
  items : List Page
  score : Option ℚ
deriving DecidableEq

/-- Tier 1 hits: normalized-title equality (matcher.js line 22). -/
def exactHits (pages : List Page) (e : String) : List Page :=
  pages.filter (fun p => p.titleN = e)

/-- The string formed by the first `k` space-separated words of the
expected title (matcher.js line 27). -/
def pfxOfWords (e : String) (k : Nat) : String :=
  ⟨joinCh ' ' ((splitCh ' ' e.data).take k)⟩

/-- Tier 2 hits: pages whose normalized title has `pfxOfWords e k` as a
string prefix (matcher.js line 28). -/
def pfxHits (pages : List Page) (e : String) (k : Nat) : List Page :=
  pages.filter (fun p => isPre (pfxOfWords e k) p.titleN.data)

/-- Tier 3 candidates: all pages scored by Jaccard similarity, keeping
those at or above the threshold (matcher.js lines 33-34). -/
def scoredAtLeast (pages : List Page) (e : String) (thr : ℚ) :
    List (Page × ℚ) :=
  (pages.map (fun p => (p, jaccard p.titleN e))).filter (fun x => x.2 ≥ thr)

/-- The score of the head of the descending sort (matcher.js line 35),
i.e. the maximum retained score. -/
def bestScore (scored : List (Page × ℚ)) : ℚ :=
  ((scored.map (fun x => x.2)).maximum).getD 0

/-- `findByPrefixThenSimilarity` (matcher.js lines 19-39). -/
def findByPfxThenSimilarity (pages : List Page) (e : String) (k : Nat)
    (thr : ℚ) : MatchResult :=
  let ex := exactHits pages e
  if ¬ ex.isEmpty then ⟨"exact", ex, none⟩
  else
    let ph := pfxHits pages e k
    if ¬ ph.isEmpty then ⟨"prefix", ph, none⟩
    else
      let scored := scoredAtLeast pages e thr
      if scored.isEmpty then ⟨"none", [], none⟩
      else
        let best := bestScore scored
        ⟨"fuzzy", (scored.filter (fun x => x.2 = best)).map (fun x => x.1),
          some best⟩

/-- Default `prefixWords` (matcher.js line 20). -/
def pfxWordsDefault : Nat := 4

/-- Default `fuzzyThreshold` (matcher.js line 20), the rational 0.6. -/
def fuzzyThresholdDefault : ℚ := mkRat 3 5

/-- How `writeReports` classifies a title-based row (reports.js lines
163-171): `none` goes to not-found, more than one candidate goes to
ambiguous, otherwise the single candidate is the match. -/
inductive RowOutcome where
  | notFound
  | ambiguous
  | matched (url : String)
deriving DecidableEq

/-- The title-based branch of `writeReports` (reports.js lines 163-173). -/
def classifyTitleRow (pages : List Page) (e : String) (k : Nat) (thr : ℚ) :
    RowOutcome :=
  let m := findByPfxThenSimilarity pages e k thr
  if m.mtype = "none" then .notFound
  else if 1 < m.items.length then .ambiguous
  else .matched ((m.items.headD ⟨"", ""⟩).url)

/-- The middle tier as the claim words it: pages whose first `k`
space-separated title words equal the first `k` words of the expected
title.  This is the claim's description, kept for comparison with the
source's `startsWith` tier. -/
def specTokenPfxHits (pages : List Page) (e : String) (k : Nat) : List Page :=
  pages.filter
    (fun p => (splitCh ' ' p.titleN.data).take k = (splitCh ' ' e.data).take k)

/-- The three-tier matcher as the claim describes it: exact tier, then the
token-equality middle tier, then the same fuzzy tier.  Used only to
compare the claim's wording with the source behavior. -/
def findBySpecDescription (pages : List Page) (e : String) (k : Nat)
    (thr : ℚ) : MatchResult :=
  let ex := exactHits pages e
  if ¬ ex.isEmpty then ⟨"exact", ex, none⟩
  else
    let ph := specTokenPfxHits pages e k
    if ¬ ph.isEmpty then ⟨"prefix", ph, none⟩
    else
      let scored := scoredAtLeast pages e thr
      if scored.isEmpty then ⟨"none", [], none⟩
      else
        let best := bestScore scored
        ⟨"fuzzy", (scored.filter (fun x => x.2 = best)).map (fun x => x.1),
          some best⟩

/-! ### C2 — orchestrator merge (scripts/shard-run.js)

Each exiting worker's `urls-final.part{k}.json` array is appended
line-by-line to `urls-final.txt` (shard-run.js lines 659-670); when every
worker has exited and no stop was requested the orchestrator calls
`mergeManifestDedup(master, outDir)` (line 689).  `mergeManifestDedup` is
invoked but not defined anywhere in the sources. -/

/-- The master list: the per-worker URL lists appended line-by-line in
exit order (shard-run.js lines 666-669). -/
def masterLines (parts : List (List String)) : List String := parts.flatten

/-- Modelled from the spec: `mergeManifestDedup` is called by the
orchestrator (shard-run.js lines 323 and 689) but its definition is
missing from the sources.  Spec §4.8 Merge: "URL files
(`urls-final.part{k}.json`) concatenated line-by-line into a master list,
then reduced to a set."  Reducing a list to a set keeps one copy of each
line, in first-seen order. -/
def mergeManifestDedup (master : List String) : List String :=
  dedupFirst master

/-! ### C9 — `normalizeUrl` (src/match/normalize.js lines 8-19)

`normalizeUrl` is built on the platform's WHATWG `new URL` parser, which
is outside the repository.  Modelled from the spec: the parser accepts
absolute `http`/`https` URLs and exposes scheme, host (with optional
port), path, query parameters and fragment; the model parser accepts the
already-canonical subset of these URLs — lowercase scheme and host, no
percent-escaping, and a query string that is exactly the serialization of
its parameter list — and represents them as a record.  On this subset
parsing and serialization are mutually inverse, which is the property of
the platform parser the function relies on.  `normRec` then performs the
body of `normalizeUrl`: drop the fragment, delete the analytics
parameters and (unless kept) the `page` parameter, lowercase the host,
drop the `?` when no parameters remain, and strip one trailing slash from
a non-root path. -/

/-- Characters the model parser accepts in `url.host` (lowercase
registrable names with optional port). -/
def hostAllowed : List Char := "abcdefghijklmnopqrstuvwxyz0123456789.-:".data

/-- Host-character test. -/
def hostChar (c : Char) : Bool := hostAllowed.contains c

/-- The parsed URL record: scheme, host, path, optional query parameter
list (`none` when the URL has no `?`), optional fragment. -/
structure UrlRec where
  scheme : List Char
  host : List Char
  path : List Char
  query : Option (List (List Char × List Char))
  fragment : Option (List Char)
deriving DecidableEq

/-- Remove a literal prefix, or fail. -/
def stripPre : List Char → List Char → Option (List Char)
  | [], l => some l
  | _ :: _, [] => none
  | p :: ps, c :: cs => if p = c then stripPre ps cs else none

/-- Split at the first occurrence of `sep`: the part before it and, when
present, the part after it. -/
def breakAt (sep : Char) : List Char → List Char × Option (List Char)
  | [] => ([], none)
  | c :: cs =>
    if c = sep then ([], some cs)
    else
      let r := breakAt sep cs
      (c :: r.1, r.2)

/-- One `k=v` piece of a query string as a key/value pair; a piece with no
`=` gets an empty value, as `URLSearchParams` does. -/
def pieceToPair (piece : List Char) : List Char × List Char :=
  let r := breakAt '=' piece
  (r.1, r.2.getD [])

/-- The parameter list of a query string: `&`-separated nonempty pieces,
each split at its first `=`. -/
def pairsOfQuery (q : List Char) : List (List Char × List Char) :=
  ((splitCh '&' q).filter (fun p => ¬ p.isEmpty)).map pieceToPair

/-- Serialize a parameter list back to `k=v&…`. -/
def queryOfPairs (ps : List (List Char × List Char)) : List Char :=
  joinCh '&' (ps.map (fun kv => kv.1 ++ '=' :: kv.2))

/-- The key/value pairs the model's query strings carry: no separator
characters inside keys or values. -/
def CleanPair (kv : List Char × List Char) : Prop :=
  ('&' ∉ kv.1 ∧ '=' ∉ kv.1 ∧ '#' ∉ kv.1) ∧ ('&' ∉ kv.2 ∧ '#' ∉ kv.2)

/-- Parse a `?`-introduced query (and optional fragment): the query runs
to the first `#` and must be in canonical `k=v&…` form (its parse
re-serializes to the same characters). -/
def parseQuery (scheme host path qf : List Char) : Option UrlRec :=
  let q := qf.takeWhile (fun c => ¬ (c = '#'))
  let ps := pairsOfQuery q
  if queryOfPairs ps = q then
    match qf.dropWhile (fun c => ¬ (c = '#')) with
    | [] => some ⟨scheme, host, path, some ps, none⟩
    | '#' :: fr => some ⟨scheme, host, path, some ps, some fr⟩
    | _ => none
  else none

/-- The path component read from the after-host tail: characters up to
`?` or `#`, an empty read becoming `/`. -/
def pathOf (rest1 : List Char) : List Char :=
  if (rest1.takeWhile (fun c => ¬ (c = '?' ∨ c = '#'))).isEmpty then ['/']
  else rest1.takeWhile (fun c => ¬ (c = '?' ∨ c = '#'))

/-- Parse the part after the host: path up to `?` or `#` (an empty path
becomes `/`), then query and fragment. -/
def parseTail (scheme host rest1 : List Char) : Option UrlRec :=
  let path := pathOf rest1
  match rest1.dropWhile (fun c => ¬ (c = '?' ∨ c = '#')) with
  | [] => some ⟨scheme, host, path, none, none⟩
  | '?' :: qf => parseQuery scheme host path qf
  | '#' :: fr => some ⟨scheme, host, path, none, some fr⟩
  | _ => none

/-- Parse everything after `scheme://`: a nonempty host of allowed
characters up to `/`, `?` or `#`, then the tail. -/
def parseAfterScheme (scheme rest : List Char) : Option UrlRec :=
  let host := rest.takeWhile (fun c => ¬ (c = '/' ∨ c = '?' ∨ c = '#'))
  if host.isEmpty then none
  else if ¬ host.all hostChar then none
  else parseTail scheme host
    (rest.dropWhile (fun c => ¬ (c = '/' ∨ c = '?' ∨ c = '#')))

/-- Modelled from the spec: the platform URL parser, restricted to the
canonical subset described in the section header. -/
def parseUrl (s : String) : Option UrlRec :=
  match stripPre "http://".data s.data with
  | some rest => parseAfterScheme "http".data rest
  | none =>
    match stripPre "https://".data s.data with
    | some rest => parseAfterScheme "https".data rest
    | none => none

/-- The serialized query part: empty, or `?` followed by the pairs. -/
def qpartOf : Option (List (List Char × List Char)) → List Char
  | none => []
  | some ps => '?' :: queryOfPairs ps

/-- The serialized fragment part: empty, or `#` followed by the fragment. -/
def fragPartOf : Option (List Char) → List Char
  | none => []
  | some f => '#' :: f

/-- `url.toString()` for the model record. -/
def serializeUrl (r : UrlRec) : List Char :=
  r.scheme ++ "://".data ++ r.host ++ r.path
    ++ qpartOf r.query ++ fragPartOf r.fragment

/-- The analytics parameter names dropped by `normalizeUrl`
(normalize.js line 12). -/
def analyticsKeys : List (List Char) :=
  ["utm_source", "utm_medium", "utm_campaign", "utm_term", "utm_content",
    "gclid", "fbclid"].map String.data

/-- The parameter filtering of `normalizeUrl` (normalize.js lines 12-14):
delete parameters whose lowercased key is an analytics key, and delete
`page` unless kept. -/
def normPairs (keepPageParam : Bool) (ps : List (List Char × List Char)) :
    List (List Char × List Char) :=
  let ps1 := ps.filter (fun kv => ¬ analyticsKeys.contains (lowerL kv.1))
  if keepPageParam then ps1
  else ps1.filter (fun kv => kv.1 ≠ "page".data)

/-- The query step of `normalizeUrl`: filter the parameters and clear the
query entirely when none remain (normalize.js line 16). -/
def normQuery (keepPageParam : Bool)
    (q : Option (List (List Char × List Char))) :
    Option (List (List Char × List Char)) :=
  let ps2 := normPairs keepPageParam (q.getD [])
  if ps2.isEmpty then none else some ps2

/-- The path step of `normalizeUrl`: strip one trailing slash from a
non-root path (normalize.js line 17). -/
def normPath (p : List Char) : List Char :=
  if 1 < p.length ∧ p.getLast? = some '/' then p.dropLast else p

/-- The body of `normalizeUrl` (normalize.js lines 10-18) on the parsed
record: drop the fragment (line 11); filter the query parameters
(lines 12-14, 16); lowercase the host (line 15); strip one trailing
slash from a non-root path (line 17). -/
def normRec (keepPageParam : Bool) (r : UrlRec) : UrlRec :=
  ⟨r.scheme, lowerL r.host, normPath r.path,
    normQuery keepPageParam r.query, none⟩

/-- `normalizeUrl(u, opts)` (normalize.js lines 8-19): parse, normalize the
record, serialize.  `none` is the thrown `TypeError` of `new URL` on an
unaccepted input. -/
def normalizeUrl (keepPageParam : Bool) (u : String) : Option String :=
  (parseUrl u).map (fun r => (⟨serializeUrl (normRec keepPageParam r)⟩ : String))

/-- The path ends in two slashes (the inputs the trailing-slash strip of
normalize.js line 17 does not normalize in one pass). -/
def EndsTwoSlash (p : List Char) : Prop :=
  p.getLast? = some '/' ∧ p.dropLast.getLast? = some '/'

instance (p : List Char) : Decidable (EndsTwoSlash p) := by
  unfold EndsTwoSlash
  infer_instance

/-- Invariants of records produced by `parseUrl`: these make serialization
parse back to the same record. -/
structure UrlCanon (r : UrlRec) : Prop where
  scheme_ok : r.scheme = "http".data ∨ r.scheme = "https".data
  host_ne : r.host ≠ []
  host_ok : ∀ c ∈ r.host, hostChar c = true
  path_ne : r.path ≠ []
  path_head : r.path.head? = some '/'
  path_ok : ∀ c ∈ r.path, ¬ (c = '?' ∨ c = '#')
  query_ok : ∀ ps, r.query = some ps → ∀ kv ∈ ps, CleanPair kv

/-! ### Concrete claim inputs -/

/-- Concrete inputs for C1: a bucket holding one URL line that the accept
predicate rejects. -/
def c1Buf : String := "https://ex.com/a\n"

/-- Concrete input for C4: two comma-separated columns over five rows,
with exactly three of five first-column cells URL-ish (share exactly 0.6)
and no URL-ish second-column cell. -/
def c4Input : String := "/a,t1\n/b,t2\n/c,t3\na,t4\nb,t5"

/-- The cell splitter instance used at the concrete C5 inputs: a plain
comma split, which coincides with csv.js `splitCsvLine` on lines without
quotes or empty cells. -/
def commaSplit (l : String) : List String :=
  (splitCh ',' l.data).map String.mk

/-- Concrete catalog for C8: one page whose single-word normalized title
extends the expected title as a string but differs from it as a token. -/
def c8Pages : List Page := [⟨"abc", "u1"⟩]

/-! ## Supporting lemmas -/

theorem mem_dedupFirstAux {α : Type} [DecidableEq α] (u : α) :
    ∀ (l seen : List α), u ∈ dedupFirstAux seen l ↔ u ∈ l ∧ u ∉ seen
  | [], seen => by simp [dedupFirstAux]
  | x :: xs, seen => by
    rw [dedupFirstAux]
    by_cases hx : x ∈ seen
    · rw [if_pos hx, mem_dedupFirstAux u xs seen]
      constructor
      · rintro ⟨h1, h2⟩
        exact ⟨List.mem_cons_of_mem x h1, h2⟩
      · rintro ⟨h1, h2⟩
        rcases List.mem_cons.1 h1 with h | h
        · subst h
          exact absurd hx h2
        · exact ⟨h, h2⟩
    · rw [if_neg hx]
      by_cases hux : u = x
      · subst hux
        simp [hx]
      · simp only [List.mem_cons, hux, false_or]
        rw [mem_dedupFirstAux u xs (x :: seen)]
        simp [List.mem_cons, hux]

theorem mem_dedupFirst {α : Type} [DecidableEq α] (u : α) (l : List α) :
    u ∈ dedupFirst l ↔ u ∈ l := by
  rw [dedupFirst, mem_dedupFirstAux]
  simp

theorem nodup_dedupFirstAux {α : Type} [DecidableEq α] :
    ∀ (l seen : List α), (dedupFirstAux seen l).Nodup
  | [], seen => by simp [dedupFirstAux]
  | x :: xs, seen => by
    rw [dedupFirstAux]
    by_cases hx : x ∈ seen
    · rw [if_pos hx]
      exact nodup_dedupFirstAux xs seen
    · rw [if_neg hx]
      refine List.nodup_cons.2 ⟨?_, nodup_dedupFirstAux xs (x :: seen)⟩
      intro hmem
      have := (mem_dedupFirstAux x xs (x :: seen)).1 hmem
      exact this.2 (List.mem_cons_self x seen)

theorem nodup_dedupFirst {α : Type} [DecidableEq α] (l : List α) :
    (dedupFirst l).Nodup :=
  nodup_dedupFirstAux l []

theorem tryClaimGo_attempts_le (o : Nat → CreateOutcome) :
    ∀ fuel i, (tryClaimGo o i fuel).attempts ≤ i + fuel
  | 0, i => by simp [tryClaimGo]
  | fuel + 1, i => by
    rw [tryClaimGo]
    cases o i <;> simp only []
    · omega
    · omega
    · have := tryClaimGo_attempts_le o fuel (i + 1)
      omega
    · omega

theorem tryClaimGo_sleeps_le (o : Nat → CreateOutcome) :
    ∀ fuel i, (tryClaimGo o i fuel).sleeps ≤ (tryClaimGo o i fuel).attempts
  | 0, i => by simp [tryClaimGo]
  | fuel + 1, i => by
    rw [tryClaimGo]
    cases o i <;> simp only []
    · omega
    · omega
    · exact tryClaimGo_sleeps_le o fuel (i + 1)
    · omega

theorem tryClaimGo_pre_transient (o : Nat → CreateOutcome) :
    ∀ fuel i, (∀ j, j < i → o j = .transientBusy) →
      ∀ k, k + 1 < (tryClaimGo o i fuel).attempts → o k = .transientBusy
  | 0, i, h => by
    intro k hk
    simp only [tryClaimGo] at hk
    exact h k (by omega)
  | fuel + 1, i, h => by
    intro k hk
    rw [tryClaimGo] at hk
    cases ho : o i with
    | success => rw [ho] at hk; simp only [] at hk; exact h k (by omega)
    | eexist => rw [ho] at hk; simp only [] at hk; exact h k (by omega)
    | hardErr => rw [ho] at hk; simp only [] at hk; exact h k (by omega)
    | transientBusy =>
      rw [ho] at hk
      refine tryClaimGo_pre_transient o fuel (i + 1) ?_ k hk
      intro j hj
      rcases Nat.lt_or_ge j i with hj' | hj'
      · exact h j hj'
      · have : j = i := by omega
        rw [this]; exact ho

theorem tryClaimGo_eexist_stops (o : Nat → CreateOutcome) :
    ∀ fuel i k, i ≤ k → k < i + fuel →
      (∀ j, i ≤ j → j < k → o j = .transientBusy) → o k = .eexist →
      tryClaimGo o i fuel = ⟨false, k + 1, k⟩
  | 0, i, k, hik, hk, _, _ => by omega
  | fuel + 1, i, k, hik, hk, hpre, hke => by
    rw [tryClaimGo]
    rcases Nat.eq_or_lt_of_le hik with h | h
    · subst h
      rw [hke]
    · have hi : o i = .transientBusy := hpre i (Nat.le_refl i) h
      rw [hi]
      exact tryClaimGo_eexist_stops o fuel (i + 1) k h (by omega)
        (fun j hj hjk => hpre j (by omega) hjk) hke

theorem splitPred_ne_nil (p : Char → Bool) : ∀ (l : List Char), splitPred p l ≠ []
  | [] => by simp [splitPred]
  | c :: cs => by
    rw [splitPred]
    by_cases hc : p c
    · simp [hc]
    · rw [if_neg hc]
      cases h : splitPred p cs with
      | nil => simp
      | cons q qs => simp

theorem splitPred_no_sep (p : Char → Bool) :
    ∀ (q : List Char), (∀ c ∈ q, p c = false) → splitPred p q = [q]
  | [], _ => rfl
  | c :: cs, h => by
    rw [splitPred, if_neg (by simp [h c (List.mem_cons_self c cs)])]
    rw [splitPred_no_sep p cs (fun x hx => h x (List.mem_cons_of_mem c hx))]

theorem splitPred_append_sep (p : Char → Bool) (sep : Char) (hsep : p sep = true) :
    ∀ (q rest : List Char), (∀ c ∈ q, p c = false) →
      splitPred p (q ++ sep :: rest) = q :: splitPred p rest := by
  intro q
  induction q with
  | nil =>
    intro rest _
    rw [List.nil_append, splitPred, if_pos hsep]
  | cons c cs ih =>
    intro rest h
    rw [List.cons_append, splitPred,
      if_neg (by simp [h c (List.mem_cons_self c cs)]),
      ih rest (fun x hx => h x (List.mem_cons_of_mem c hx))]

theorem splitCh_joinCh (sep : Char) :
    ∀ (qs : List (List Char)), qs ≠ [] → (∀ q ∈ qs, sep ∉ q) →
      splitCh sep (joinCh sep qs) = qs
  | [], h, _ => absurd rfl h
  | [q], _, hq => by
    rw [joinCh, splitCh,
      splitPred_no_sep _ q (fun c hc => by
        simp only [decide_eq_false_iff_not]
        intro he
        subst he
        exact hq q (List.mem_singleton_self q) hc)]
  | q :: q' :: qs, _, hq => by
    have hrec := splitCh_joinCh sep (q' :: qs) (fun h => List.noConfusion h)
      (fun x hx => hq x (List.mem_cons_of_mem q hx))
    rw [splitCh] at hrec ⊢
    rw [joinCh, splitPred_append_sep _ sep (by simp) q (joinCh sep (q' :: qs))
      (fun c hc => by
        simp only [decide_eq_false_iff_not]
        intro he
        subst he
        exact hq q (by simp) hc), hrec]
    exact fun h => List.noConfusion h

theorem breakAt_append (sep : Char) :
    ∀ (k v : List Char), sep ∉ k → breakAt sep (k ++ sep :: v) = (k, some v)
  | [], v, _ => by rw [List.nil_append, breakAt, if_pos rfl]
  | c :: cs, v, h => by
    rw [List.cons_append, breakAt,
      if_neg (fun he => h (List.mem_cons.2 (Or.inl he.symm)))]
    rw [breakAt_append sep cs v (fun hc => h (List.mem_cons_of_mem c hc))]

theorem pieceToPair_of_pair (k v : List Char) (h : '=' ∉ k) :
    pieceToPair (k ++ '=' :: v) = (k, v) := by
  rw [pieceToPair, breakAt_append '=' k v h]
  simp

/-- Serialized pieces are nonempty and `&`-free for clean pairs. -/
theorem pairsOfQuery_queryOfPairs (ps : List (List Char × List Char))
    (h : ∀ kv ∈ ps, '&' ∉ kv.1 ∧ '=' ∉ kv.1 ∧ '&' ∉ kv.2) :
    pairsOfQuery (queryOfPairs ps) = ps := by
  cases ps with
  | nil => rfl
  | cons kv ps' =>
    rw [pairsOfQuery, queryOfPairs]
    rw [splitCh_joinCh '&' _ (by simp) ?sepfree]
    case sepfree =>
      intro q hq
      rw [List.mem_map] at hq
      obtain ⟨kv', hkv', hq'⟩ := hq
      subst hq'
      intro hc
      rcases List.mem_append.1 hc with hc | hc
      · exact (h kv' hkv').1 hc
      · rcases List.mem_cons.1 hc with hc | hc
        · exact absurd hc.symm (by decide)
        · exact (h kv' hkv').2.2 hc
    rw [List.filter_eq_self.2 ?nonnil]
    case nonnil =>
      intro piece hpiece
      rw [List.mem_map] at hpiece
      obtain ⟨kv', _, hp'⟩ := hpiece
      subst hp'
      cases hk : kv'.1 with
      | nil => simp
      | cons a b => simp
    rw [List.map_map]
    rw [List.map_congr_left (fun kv' hkv' => by
      show pieceToPair (kv'.1 ++ '=' :: kv'.2) = kv'
      rw [pieceToPair_of_pair kv'.1 kv'.2 (h kv' hkv').2.1])]
    exact List.map_id _

theorem splitPred_sep_free (p : Char → Bool) :
    ∀ (l : List Char), ∀ part ∈ splitPred p l, ∀ c ∈ part, p c = false
  | [] => by
    intro part hpart c hc
    rw [splitPred, List.mem_singleton] at hpart
    subst hpart
    exact absurd hc (List.not_mem_nil c)
  | a :: as => by
    intro part hpart c hc
    rw [splitPred] at hpart
    by_cases ha : p a
    · rw [if_pos ha, List.mem_cons] at hpart
      rcases hpart with h | h
      · subst h
        exact absurd hc (List.not_mem_nil c)
      · exact splitPred_sep_free p as part h c hc
    · rw [if_neg ha] at hpart
      cases hs : splitPred p as with
      | nil => exact absurd hs (splitPred_ne_nil p as)
      | cons q qs =>
        rw [hs, List.mem_cons] at hpart
        rcases hpart with h | h
        · subst h
          rcases List.mem_cons.1 hc with h | h
          · subst h
            simpa using ha
          · refine splitPred_sep_free p as q ?_ c h
            rw [hs]
            exact List.mem_cons_self q qs
        · refine splitPred_sep_free p as part ?_ c hc
          rw [hs]
          exact List.mem_cons_of_mem q h

theorem splitPred_subset (p : Char → Bool) :
    ∀ (l : List Char), ∀ part ∈ splitPred p l, ∀ c ∈ part, c ∈ l
  | [] => by
    intro part hpart c hc
    rw [splitPred, List.mem_singleton] at hpart
    subst hpart
    exact absurd hc (List.not_mem_nil c)
  | a :: as => by
    intro part hpart c hc
    rw [splitPred] at hpart
    by_cases ha : p a
    · rw [if_pos ha, List.mem_cons] at hpart
      rcases hpart with h | h
      · subst h
        exact absurd hc (List.not_mem_nil c)
      · exact List.mem_cons_of_mem a (splitPred_subset p as part h c hc)
    · rw [if_neg ha] at hpart
      cases hs : splitPred p as with
      | nil => exact absurd hs (splitPred_ne_nil p as)
      | cons q qs =>
        rw [hs, List.mem_cons] at hpart
        rcases hpart with h | h
        · subst h
          rcases List.mem_cons.1 hc with h | h
          · subst h
            exact List.mem_cons_self c as
          · refine List.mem_cons_of_mem a (splitPred_subset p as q ?_ c h)
            rw [hs]
            exact List.mem_cons_self q qs
        · exact List.mem_cons_of_mem a
            (splitPred_subset p as part (by rw [hs]; exact List.mem_cons_of_mem q h) c hc)

theorem breakAt_fst_free (sep : Char) :
    ∀ (l : List Char), sep ∉ (breakAt sep l).1
  | [] => by simp [breakAt]
  | c :: cs => by
    rw [breakAt]
    by_cases hc : c = sep
    · rw [if_pos hc]
      simp
    · rw [if_neg hc]
      intro hmem
      rcases List.mem_cons.1 hmem with h | h
      · exact hc h.symm
      · exact breakAt_fst_free sep cs h

theorem breakAt_fst_subset (sep : Char) :
    ∀ (l : List Char) (c : Char), c ∈ (breakAt sep l).1 → c ∈ l
  | [], c => by simp [breakAt]
  | a :: as, c => by
    rw [breakAt]
    by_cases ha : a = sep
    · rw [if_pos ha]
      simp
    · rw [if_neg ha]
      intro hmem
      rcases List.mem_cons.1 hmem with h | h
      · subst h
        exact List.mem_cons_self c as
      · exact List.mem_cons_of_mem a (breakAt_fst_subset sep as c h)

theorem breakAt_snd_subset (sep : Char) :
    ∀ (l r : List Char) (c : Char), (breakAt sep l).2 = some r → c ∈ r → c ∈ l
  | [], r, c => by simp [breakAt]
  | a :: as, r, c => by
    rw [breakAt]
    by_cases ha : a = sep
    · rw [if_pos ha]
      intro hr hc
      simp only [Option.some.injEq] at hr
      subst hr
      exact List.mem_cons_of_mem a hc
    · rw [if_neg ha]
      intro hr hc
      exact List.mem_cons_of_mem a (breakAt_snd_subset sep as r c hr hc)

theorem pairsOfQuery_clean (q : List Char) (hq : '#' ∉ q) :
    ∀ kv ∈ pairsOfQuery q,
      ('&' ∉ kv.1 ∧ '=' ∉ kv.1 ∧ '#' ∉ kv.1) ∧ ('&' ∉ kv.2 ∧ '#' ∉ kv.2) := by
  intro kv hkv
  rw [pairsOfQuery, List.mem_map] at hkv
  obtain ⟨piece, hpiece, hkv'⟩ := hkv
  rw [List.mem_filter] at hpiece
  obtain ⟨hpmem, -⟩ := hpiece
  have hamp : ∀ c ∈ piece, c ≠ '&' := by
    intro c hc he
    have := splitPred_sep_free _ q piece hpmem c hc
    subst he
    simp at this
  have hsub : ∀ c ∈ piece, c ∈ q := splitPred_subset _ q piece hpmem
  subst hkv'
  rw [pieceToPair]
  refine ⟨⟨?_, ?_, ?_⟩, ?_, ?_⟩
  · intro h
    exact hamp '&' (breakAt_fst_subset '=' piece '&' h) rfl
  · exact breakAt_fst_free '=' piece
  · intro h
    exact hq (hsub '#' (breakAt_fst_subset '=' piece '#' h))
  · intro h
    cases hb : (breakAt '=' piece).2 with
    | none => rw [hb] at h; simp at h
    | some r =>
      rw [hb] at h
      simp only [Option.getD_some] at h
      exact hamp '&' (breakAt_snd_subset '=' piece r '&' hb h) rfl
  · intro h
    cases hb : (breakAt '=' piece).2 with
    | none => rw [hb] at h; simp at h
    | some r =>
      rw [hb] at h
      simp only [Option.getD_some] at h
      exact hq (hsub '#' (breakAt_snd_subset '=' piece r '#' hb h))

theorem takeWhile_append_all (p : Char → Bool) :
    ∀ (xs ys : List Char), (∀ c ∈ xs, p c = true) →
      (∀ c t, ys = c :: t → p c = false) → (xs ++ ys).takeWhile p = xs
  | [], ys, _, hy => by
    rw [List.nil_append]
    cases ys with
    | nil => rfl
    | cons c t => rw [List.takeWhile_cons, hy c t rfl]; simp
  | x :: xs, ys, hx, hy => by
    rw [List.cons_append, List.takeWhile_cons, hx x (List.mem_cons_self x xs)]
    simp only [if_true]
    rw [takeWhile_append_all p xs ys (fun c hc => hx c (List.mem_cons_of_mem x hc)) hy]

theorem dropWhile_append_all (p : Char → Bool) :
    ∀ (xs ys : List Char), (∀ c ∈ xs, p c = true) →
      (∀ c t, ys = c :: t → p c = false) → (xs ++ ys).dropWhile p = ys
  | [], ys, _, hy => by
    rw [List.nil_append]
    cases ys with
    | nil => rfl
    | cons c t => rw [List.dropWhile_cons, hy c t rfl]; simp
  | x :: xs, ys, hx, hy => by
    rw [List.cons_append, List.dropWhile_cons, hx x (List.mem_cons_self x xs)]
    simp only [if_true]
    rw [dropWhile_append_all p xs ys (fun c hc => hx c (List.mem_cons_of_mem x hc)) hy]

theorem span_append_all (p : Char → Bool) (xs ys : List Char)
    (hx : ∀ c ∈ xs, p c = true) (hy : ∀ c t, ys = c :: t → p c = false) :
    (xs ++ ys).span p = (xs, ys) := by
  rw [List.span_eq_take_drop, takeWhile_append_all p xs ys hx hy,
    dropWhile_append_all p xs ys hx hy]

theorem stripPre_append : ∀ (pre l : List Char), stripPre pre (pre ++ l) = some l
  | [], l => rfl
  | c :: cs, l => by
    rw [List.cons_append, stripPre, if_pos rfl]
    exact stripPre_append cs l

theorem hostAllowed_props : ∀ c ∈ hostAllowed,
    Char.toLower c = c ∧ ¬ (c = '/' ∨ c = '?' ∨ c = '#') := by decide

theorem hostChar_mem {c : Char} (h : hostChar c = true) : c ∈ hostAllowed := by
  rw [hostChar] at h
  simpa using h

theorem lowerL_host_id (h : List Char) (hh : ∀ c ∈ h, hostChar c = true) :
    lowerL h = h := by
  rw [lowerL,
    List.map_congr_left (fun c hc => (hostAllowed_props c (hostChar_mem (hh c hc))).1)]
  exact List.map_id h

theorem dropWhile_head_false (p : Char → Bool) :
    ∀ (l : List Char) (c : Char) (t : List Char),
      l.dropWhile p = c :: t → p c = false
  | [], c, t => by simp
  | a :: as, c, t => by
    rw [List.dropWhile_cons]
    by_cases ha : p a
    · rw [if_pos ha]
      exact dropWhile_head_false p as c t
    · rw [if_neg ha]
      intro he
      have hac : a = c := (List.cons_eq_cons.1 he).1
      rw [← hac]
      simpa using ha

theorem mem_takeWhile_pred (p : Char → Bool) :
    ∀ (l : List Char) (c : Char), c ∈ l.takeWhile p → p c = true
  | [], c => by simp
  | a :: as, c => by
    rw [List.takeWhile_cons]
    by_cases ha : p a
    · rw [if_pos ha]
      intro hc
      rcases List.mem_cons.1 hc with h | h
      · subst h; exact ha
      · exact mem_takeWhile_pred p as c h
    · rw [if_neg ha]
      simp

theorem joinCh_mem (sep : Char) :
    ∀ (qs : List (List Char)) (c : Char),
      c ∈ joinCh sep qs → c = sep ∨ ∃ q ∈ qs, c ∈ q
  | [], c => by simp [joinCh]
  | [q], c => by
    rw [joinCh]
    intro hc
    exact Or.inr ⟨q, List.mem_singleton_self q, hc⟩
  | q :: q' :: qs, c => by
    rw [joinCh]
    case x_1 => exact fun h => List.noConfusion h
    intro hc
    rcases List.mem_append.1 hc with h | h
    · exact Or.inr ⟨q, List.mem_cons_self q _, h⟩
    · rcases List.mem_cons.1 h with h | h
      · exact Or.inl h
      · rcases joinCh_mem sep (q' :: qs) c h with h | ⟨q0, hq0, hcq0⟩
        · exact Or.inl h
        · exact Or.inr ⟨q0, List.mem_cons_of_mem q hq0, hcq0⟩

theorem queryOfPairs_no_hash (ps : List (List Char × List Char))
    (h : ∀ kv ∈ ps, CleanPair kv) : '#' ∉ queryOfPairs ps := by
  rw [queryOfPairs]
  intro hc
  rcases joinCh_mem '&' _ '#' hc with h0 | ⟨piece, hpiece, hcp⟩
  · exact absurd h0 (by decide)
  · rw [List.mem_map] at hpiece
    obtain ⟨kv, hkv, hp'⟩ := hpiece
    subst hp'
    rcases List.mem_append.1 hcp with h1 | h1
    · exact (h kv hkv).1.2.2 h1
    · rcases List.mem_cons.1 h1 with h1 | h1
      · exact absurd h1 (by decide)
      · exact (h kv hkv).2.2 h1

theorem pairsOfQuery_cleanPair (q : List Char) (hq : '#' ∉ q) :
    ∀ kv ∈ pairsOfQuery q, CleanPair kv := by
  intro kv hkv
  exact pairsOfQuery_clean q hq kv hkv

theorem pathOf_props (rest1 : List Char)
    (hh : ∀ c t, rest1 = c :: t → (c = '/' ∨ c = '?' ∨ c = '#')) :
    pathOf rest1 ≠ [] ∧ (pathOf rest1).head? = some '/'
    ∧ ∀ c ∈ pathOf rest1, ¬ (c = '?' ∨ c = '#') := by
  cases rest1 with
  | nil =>
    refine ⟨fun hne => List.noConfusion hne, rfl, ?_⟩
    intro c hc
    rw [pathOf] at hc
    simp only [List.takeWhile_nil, List.isEmpty_nil, if_true] at hc
    rw [List.mem_singleton] at hc
    subst hc
    decide
  | cons c t =>
    rcases hh c t rfl with hc | hc
    · subst hc
      rw [pathOf, List.takeWhile_cons]
      simp only [show (decide ¬('/' = '?' ∨ '/' = '#')) = true by decide, if_true]
      have hie : (('/' :: t.takeWhile (fun c => ¬ (c = '?' ∨ c = '#'))).isEmpty) = false := rfl
      rw [hie]
      simp only [Bool.false_eq_true, if_false]
      refine ⟨fun hne => List.noConfusion hne, rfl, ?_⟩
      intro x hx
      rcases List.mem_cons.1 hx with h | h
      · subst h; decide
      · simpa using mem_takeWhile_pred _ t x h
    · have hstop : ((c :: t).takeWhile (fun c => ¬ (c = '?' ∨ c = '#'))) = [] := by
        rw [List.takeWhile_cons]
        rw [if_neg (by simpa using not_not.2 hc)]
      rw [pathOf, hstop]
      simp only [List.isEmpty_nil, if_true]
      refine ⟨fun hne => List.noConfusion hne, rfl, ?_⟩
      intro x hx
      rw [List.mem_singleton] at hx
      subst hx
      decide

theorem parseQuery_props (scheme host path qf : List Char) (r : UrlRec)
    (h : parseQuery scheme host path qf = some r) :
    ∃ ps fr, r = ⟨scheme, host, path, some ps, fr⟩
      ∧ ∀ kv ∈ ps, CleanPair kv := by
  simp only [parseQuery] at h
  split_ifs at h with h1
  have hclean : ∀ kv ∈ pairsOfQuery (qf.takeWhile (fun c => ¬ (c = '#'))),
      CleanPair kv := by
    refine pairsOfQuery_cleanPair _ ?_
    intro hhash
    have := mem_takeWhile_pred _ _ _ hhash
    simp at this
  split at h
  next heq => exact ⟨_, _, (Option.some.inj h).symm, hclean⟩
  next fr heq => exact ⟨_, _, (Option.some.inj h).symm, hclean⟩
  next heq => exact absurd h (by simp)

theorem parseTail_props (scheme host rest1 : List Char) (r : UrlRec)
    (hh : ∀ c t, rest1 = c :: t → (c = '/' ∨ c = '?' ∨ c = '#'))
    (h : parseTail scheme host rest1 = some r) :
    r.scheme = scheme ∧ r.host = host
    ∧ r.path ≠ [] ∧ r.path.head? = some '/'
    ∧ (∀ c ∈ r.path, ¬ (c = '?' ∨ c = '#'))
    ∧ (∀ ps, r.query = some ps → ∀ kv ∈ ps, CleanPair kv) := by
  obtain ⟨hne, hhd, hok⟩ := pathOf_props rest1 hh
  simp only [parseTail] at h
  split at h
  next heq =>
    have hr := (Option.some.inj h).symm
    subst hr
    exact ⟨rfl, rfl, hne, hhd, hok, fun ps hps => absurd hps (by simp)⟩
  next qf heq =>
    obtain ⟨ps, fr, hr, hclean⟩ := parseQuery_props scheme host (pathOf rest1) qf r h
    subst hr
    refine ⟨rfl, rfl, hne, hhd, hok, ?_⟩
    intro ps' hps' kv hkv
    have : ps = ps' := Option.some.inj hps'
    subst this
    exact hclean kv hkv
  next fr heq =>
    have hr := (Option.some.inj h).symm
    subst hr
    exact ⟨rfl, rfl, hne, hhd, hok, fun ps hps => absurd hps (by simp)⟩
  next heq =>
    exact absurd h (by simp)

theorem parseAfterScheme_props (scheme rest : List Char) (r : UrlRec)
    (h : parseAfterScheme scheme rest = some r) :
    r.scheme = scheme ∧ r.host ≠ [] ∧ (∀ c ∈ r.host, hostChar c = true)
    ∧ r.path ≠ [] ∧ r.path.head? = some '/'
    ∧ (∀ c ∈ r.path, ¬ (c = '?' ∨ c = '#'))
    ∧ (∀ ps, r.query = some ps → ∀ kv ∈ ps, CleanPair kv) := by
  simp only [parseAfterScheme] at h
  split_ifs at h with h1 h2
  have hh : ∀ c t,
      rest.dropWhile (fun c => ¬ (c = '/' ∨ c = '?' ∨ c = '#')) = c :: t →
      (c = '/' ∨ c = '?' ∨ c = '#') := by
    intro c t heq
    have := dropWhile_head_false _ rest c t heq
    simp at this
    tauto
  obtain ⟨hs, hhost, hrest⟩ := parseTail_props scheme _ _ r hh h
  refine ⟨hs, ?_, ?_, hrest⟩
  · rw [hhost]
    simpa [List.isEmpty_iff] using h1
  · rw [hhost]
    exact fun c hc => List.all_eq_true.1 h2 c hc

theorem parseUrl_canon (s : String) (r : UrlRec) (h : parseUrl s = some r) :
    UrlCanon r := by
  rw [parseUrl] at h
  cases h1 : stripPre "http://".data s.data with
  | some rest =>
    rw [h1] at h
    simp only [] at h
    obtain ⟨hs, hp⟩ := parseAfterScheme_props _ _ _ h
    exact ⟨Or.inl hs, hp.1, hp.2.1, hp.2.2.1, hp.2.2.2.1, hp.2.2.2.2.1, hp.2.2.2.2.2⟩
  | none =>
    rw [h1] at h
    simp only [] at h
    cases h2 : stripPre "https://".data s.data with
    | some rest =>
      rw [h2] at h
      simp only [] at h
      obtain ⟨hs, hp⟩ := parseAfterScheme_props _ _ _ h
      exact ⟨Or.inr hs, hp.1, hp.2.1, hp.2.2.1, hp.2.2.2.1, hp.2.2.2.2.1, hp.2.2.2.2.2⟩
    | none =>
      rw [h2] at h
      exact absurd h (by simp)

theorem takeWhile_all (p : Char → Bool) (l : List Char)
    (h : ∀ c ∈ l, p c = true) : l.takeWhile p = l := by
  have := takeWhile_append_all p l [] h (fun c t ht => List.noConfusion ht)
  rwa [List.append_nil] at this

theorem dropWhile_all (p : Char → Bool) (l : List Char)
    (h : ∀ c ∈ l, p c = true) : l.dropWhile p = [] := by
  have := dropWhile_append_all p l [] h (fun c t ht => List.noConfusion ht)
  rwa [List.append_nil] at this

theorem takeWhile_not_hash (l : List Char) (h : '#' ∉ l) :
    l.takeWhile (fun c => ¬ (c = '#')) = l := by
  apply takeWhile_all
  intro c hc
  have hn : ¬ c = '#' := fun he => h (by rw [← he]; exact hc)
  simpa using hn

theorem dropWhile_not_hash (l : List Char) (h : '#' ∉ l) :
    l.dropWhile (fun c => ¬ (c = '#')) = [] := by
  apply dropWhile_all
  intro c hc
  have hn : ¬ c = '#' := fun he => h (by rw [← he]; exact hc)
  simpa using hn

theorem parseQuery_of_clean (scheme host path : List Char)
    (ps : List (List Char × List Char)) (h : ∀ kv ∈ ps, CleanPair kv) :
    parseQuery scheme host path (queryOfPairs ps)
      = some ⟨scheme, host, path, some ps, none⟩ := by
  have hnh : '#' ∉ queryOfPairs ps := queryOfPairs_no_hash ps h
  have hcl : ∀ kv ∈ ps, '&' ∉ kv.1 ∧ '=' ∉ kv.1 ∧ '&' ∉ kv.2 :=
    fun kv hkv => ⟨(h kv hkv).1.1, (h kv hkv).1.2.1, (h kv hkv).2.1⟩
  simp only [parseQuery]
  rw [takeWhile_not_hash _ hnh, dropWhile_not_hash _ hnh,
    pairsOfQuery_queryOfPairs ps hcl, if_pos rfl]

theorem parseTail_ser (scheme host path : List Char)
    (q : Option (List (List Char × List Char)))
    (hne : path ≠ []) (hhd : path.head? = some '/')
    (hok : ∀ c ∈ path, ¬ (c = '?' ∨ c = '#'))
    (hq : ∀ ps, q = some ps → ∀ kv ∈ ps, CleanPair kv) :
    parseTail scheme host (path ++ qpartOf q)
      = some ⟨scheme, host, path, q, none⟩ := by
  have hie : path.isEmpty = false := by
    cases path with
    | nil => exact absurd rfl hne
    | cons a t => rfl
  cases q with
  | none =>
    have htw : (path ++ qpartOf none).takeWhile
        (fun c => ¬ (c = '?' ∨ c = '#')) = path := by
      rw [qpartOf, List.append_nil]
      apply takeWhile_all
      intro c hc
      simpa using hok c hc
    have hdw : (path ++ qpartOf none).dropWhile
        (fun c => ¬ (c = '?' ∨ c = '#')) = [] := by
      rw [qpartOf, List.append_nil]
      apply dropWhile_all
      intro c hc
      simpa using hok c hc
    simp only [parseTail, pathOf, htw, hdw, hie, Bool.false_eq_true, if_false]
  | some ps =>
    have hy : ∀ c t, ('?' :: queryOfPairs ps : List Char) = c :: t →
        (fun c => decide ¬ (c = '?' ∨ c = '#')) c = false := by
      intro c t ht
      rw [← (List.cons_eq_cons.1 ht).1]
      decide
    have hx : ∀ c ∈ path, (fun c => decide ¬ (c = '?' ∨ c = '#')) c = true := by
      intro c hc
      simpa using hok c hc
    have htw := takeWhile_append_all _ path ('?' :: queryOfPairs ps) hx hy
    have hdw := dropWhile_append_all _ path ('?' :: queryOfPairs ps) hx hy
    simp only [parseTail, pathOf, qpartOf, htw, hdw, hie, Bool.false_eq_true,
      if_false]
    exact parseQuery_of_clean scheme host path ps (hq ps rfl)

theorem parseAfterScheme_ser (sch host path : List Char)
    (q : Option (List (List Char × List Char)))
    (hhne : host ≠ []) (hhost : ∀ c ∈ host, hostChar c = true)
    (hpne : path ≠ []) (hphd : path.head? = some '/')
    (hpok : ∀ c ∈ path, ¬ (c = '?' ∨ c = '#'))
    (hq : ∀ ps, q = some ps → ∀ kv ∈ ps, CleanPair kv) :
    parseAfterScheme sch (host ++ (path ++ qpartOf q))
      = some ⟨sch, host, path, q, none⟩ := by
  have hx : ∀ c ∈ host,
      (fun c => decide ¬ (c = '/' ∨ c = '?' ∨ c = '#')) c = true := by
    intro c hc
    simpa using (hostAllowed_props c (hostChar_mem (hhost c hc))).2
  have hy : ∀ c t, path ++ qpartOf q = c :: t →
      (fun c => decide ¬ (c = '/' ∨ c = '?' ∨ c = '#')) c = false := by
    intro c t ht
    cases path with
    | nil => exact absurd rfl hpne
    | cons a pt =>
      have ha : a = '/' := Option.some.inj hphd
      rw [List.cons_append] at ht
      rw [← (List.cons_eq_cons.1 ht).1, ha]
      decide
  have htw := takeWhile_append_all _ host (path ++ qpartOf q) hx hy
  have hdw := dropWhile_append_all _ host (path ++ qpartOf q) hx hy
  have hie : host.isEmpty = false := by
    cases host with
    | nil => exact absurd rfl hhne
    | cons a t => rfl
  have hall : host.all hostChar = true := List.all_eq_true.2 hhost
  simp only [parseAfterScheme, htw, hdw, hie, Bool.false_eq_true, if_false,
    hall, not_true, if_neg (fun hf : False => hf)]
  exact parseTail_ser sch host path q hpne hphd hpok hq

theorem stripPre_http_https (l : List Char) :
    stripPre "http://".data ("https://".data ++ l) = none := by
  have h1 : "http://".data = 'h' :: 't' :: 't' :: 'p' :: ':' :: '/' :: '/' :: [] := rfl
  have h2 : "https://".data = 'h' :: 't' :: 't' :: 'p' :: 's' :: ':' :: '/' :: '/' :: [] := rfl
  rw [h1, h2]
  simp only [List.cons_append, List.nil_append]
  rw [stripPre, if_pos rfl, stripPre, if_pos rfl, stripPre, if_pos rfl,
    stripPre, if_pos rfl, stripPre, if_neg (by decide)]

theorem parse_serialize (r : UrlRec) (hc : UrlCanon r)
    (hf : r.fragment = none) :
    parseUrl ⟨serializeUrl r⟩ = some r := by
  obtain ⟨sch, host, path, q, fr⟩ := r
  simp only at hf
  subst hf
  have hser : serializeUrl ⟨sch, host, path, q, none⟩
      = sch ++ "://".data ++ (host ++ (path ++ qpartOf q)) := by
    rw [serializeUrl]
    simp only [fragPartOf, List.append_nil, List.append_assoc]
  have hdata : (⟨serializeUrl ⟨sch, host, path, q, none⟩⟩ : String).data
      = serializeUrl ⟨sch, host, path, q, none⟩ := rfl
  rcases hc.scheme_ok with hsch | hsch
  · simp only at hsch
    subst hsch
    have h1 : stripPre "http://".data
        (⟨serializeUrl ⟨"http".data, host, path, q, none⟩⟩ : String).data
        = some (host ++ (path ++ qpartOf q)) := by
      rw [hdata, hser]
      have hjoin : "http".data ++ "://".data = "http://".data := rfl
      rw [hjoin]
      exact stripPre_append _ _
    rw [parseUrl, h1]
    exact parseAfterScheme_ser _ host path q hc.host_ne hc.host_ok
      hc.path_ne hc.path_head hc.path_ok hc.query_ok
  · simp only at hsch
    subst hsch
    have h1 : stripPre "http://".data
        (⟨serializeUrl ⟨"https".data, host, path, q, none⟩⟩ : String).data
        = none := by
      rw [hdata, hser]
      have hjoin : "https".data ++ "://".data = "https://".data := rfl
      rw [hjoin]
      exact stripPre_http_https _
    have h2 : stripPre "https://".data
        (⟨serializeUrl ⟨"https".data, host, path, q, none⟩⟩ : String).data
        = some (host ++ (path ++ qpartOf q)) := by
      rw [hdata, hser]
      have hjoin : "https".data ++ "://".data = "https://".data := rfl
      rw [hjoin]
      exact stripPre_append _ _
    rw [parseUrl, h1, h2]
    exact parseAfterScheme_ser _ host path q hc.host_ne hc.host_ok
      hc.path_ne hc.path_head hc.path_ok hc.query_ok

theorem normPairs_subset (keep : Bool) (ps : List (List Char × List Char)) :
    ∀ kv ∈ normPairs keep ps, kv ∈ ps := by
  intro kv hkv
  simp only [normPairs] at hkv
  cases keep with
  | true =>
    simp only [if_true] at hkv
    exact (List.mem_filter.1 hkv).1
  | false =>
    simp only [Bool.false_eq_true, if_false] at hkv
    exact (List.mem_filter.1 (List.mem_filter.1 hkv).1).1

theorem normPairs_idem (keep : Bool) (ps : List (List Char × List Char)) :
    normPairs keep (normPairs keep ps) = normPairs keep ps := by
  have hf1 : ∀ kv ∈ normPairs keep ps,
      (¬ analyticsKeys.contains (lowerL kv.1) : Bool) = true := by
    intro kv hkv
    simp only [normPairs] at hkv
    cases keep with
    | true =>
      simp only [if_true] at hkv
      exact (List.mem_filter.1 hkv).2
    | false =>
      simp only [Bool.false_eq_true, if_false] at hkv
      exact (List.mem_filter.1 (List.mem_filter.1 hkv).1).2
  cases keep with
  | true =>
    simp only [normPairs, if_true]
    exact List.filter_eq_self.2 hf1
  | false =>
    simp only [normPairs, Bool.false_eq_true, if_false]
    have hf2 : ∀ kv ∈ normPairs false ps, (kv.1 ≠ "page".data : Bool) = true := by
      intro kv hkv
      simp only [normPairs, Bool.false_eq_true, if_false] at hkv
      exact (List.mem_filter.1 hkv).2
    have h1 := List.filter_eq_self.2 (fun kv hkv =>
      hf1 kv (by simp only [normPairs, Bool.false_eq_true, if_false]; exact hkv))
    rw [h1]
    exact List.filter_eq_self.2 (fun kv hkv =>
      hf2 kv (by simp only [normPairs, Bool.false_eq_true, if_false]; exact hkv))

theorem normPairs_nil (keep : Bool) : normPairs keep [] = [] := by
  cases keep with
  | true => rfl
  | false => rfl

theorem normQuery_idem (keep : Bool)
    (q : Option (List (List Char × List Char))) :
    normQuery keep (normQuery keep q) = normQuery keep q := by
  by_cases hq : (normPairs keep (q.getD [])).isEmpty = true
  · have h1 : normQuery keep q = none := by
      simp only [normQuery]
      rw [if_pos hq]
    rw [h1]
    simp only [normQuery, Option.getD_none, normPairs_nil]
    rfl
  · have h1 : normQuery keep q = some (normPairs keep (q.getD [])) := by
      simp only [normQuery]
      rw [if_neg hq]
    rw [h1]
    simp only [normQuery, Option.getD_some]
    rw [normPairs_idem, if_neg hq]

theorem normQuery_mem (keep : Bool)
    (q : Option (List (List Char × List Char)))
    (ps : List (List Char × List Char)) (h : normQuery keep q = some ps) :
    ∀ kv ∈ ps, kv ∈ q.getD [] := by
  intro kv hkv
  simp only [normQuery] at h
  split at h
  next => exact absurd h (by simp)
  next =>
    rw [← Option.some.inj h] at hkv
    exact normPairs_subset keep _ kv hkv

theorem dropLast_ne_nil (l : List Char) (h : 1 < l.length) :
    l.dropLast ≠ [] := by
  have hlen : l.dropLast.length = l.length - 1 := List.length_dropLast l
  intro he
  rw [he] at hlen
  simp at hlen
  omega

theorem dropLast_head (l : List Char) (h : 1 < l.length) :
    l.dropLast.head? = l.head? := by
  cases l with
  | nil => simp at h
  | cons a t =>
    cases t with
    | nil => simp at h
    | cons b t' => rfl

theorem mem_dropLast (l : List Char) (c : Char) (h : c ∈ l.dropLast) :
    c ∈ l := by
  rw [List.dropLast_eq_take] at h
  exact List.take_subset _ _ h

theorem normPath_ne (p : List Char) (h : p ≠ []) : normPath p ≠ [] := by
  rw [normPath]
  split_ifs with hc
  · exact dropLast_ne_nil p hc.1
  · exact h

theorem normPath_head (p : List Char) : (normPath p).head? = p.head? := by
  rw [normPath]
  split_ifs with hc
  · exact dropLast_head p hc.1
  · rfl

theorem normPath_mem (p : List Char) (c : Char) (h : c ∈ normPath p) :
    c ∈ p := by
  rw [normPath] at h
  split_ifs at h with hc
  · exact mem_dropLast p c h
  · exact h

theorem normPath_idem (p : List Char) (hnes : ¬ EndsTwoSlash p) :
    normPath (normPath p) = normPath p := by
  by_cases hc : 1 < p.length ∧ p.getLast? = some '/'
  · have hin : normPath p = p.dropLast := by rw [normPath, if_pos hc]
    have hx : ¬ (1 < p.dropLast.length ∧ p.dropLast.getLast? = some '/') :=
      fun hx => hnes ⟨hc.2, hx.2⟩
    rw [hin, normPath, if_neg hx]
  · have hin : normPath p = p := by rw [normPath, if_neg hc]
    rw [hin, normPath, if_neg hc]

theorem normRec_canon (keep : Bool) (r : UrlRec) (hc : UrlCanon r) :
    UrlCanon (normRec keep r) := by
  have hl : lowerL r.host = r.host := lowerL_host_id _ hc.host_ok
  refine ⟨hc.scheme_ok, ?_, ?_, ?_, ?_, ?_, ?_⟩
  · show lowerL r.host ≠ []
    rw [hl]
    exact hc.host_ne
  · show ∀ c ∈ lowerL r.host, hostChar c = true
    rw [hl]
    exact hc.host_ok
  · exact normPath_ne r.path hc.path_ne
  · show (normPath r.path).head? = some '/'
    rw [normPath_head]
    exact hc.path_head
  · intro c hcm
    exact hc.path_ok c (normPath_mem r.path c hcm)
  · intro ps hps kv hkv
    have hm := normQuery_mem keep r.query ps hps kv hkv
    cases hq : r.query with
    | none =>
      rw [hq] at hm
      simp at hm
    | some ps0 =>
      rw [hq] at hm
      exact hc.query_ok ps0 hq kv hm

theorem normRec_idem (keep : Bool) (r : UrlRec)
    (hhost : ∀ c ∈ r.host, hostChar c = true)
    (hnes : ¬ EndsTwoSlash r.path) :
    normRec keep (normRec keep r) = normRec keep r := by
  have hl : lowerL r.host = r.host := lowerL_host_id _ hhost
  simp [normRec, UrlRec.mk.injEq, hl, normPath_idem r.path hnes,
    normQuery_idem keep r.query]

/-! ## Claim theorems -/

/-! ### C1 -/

/-- C1: `claimNextBucket` is supposed to advance the persisted cursor past
every scanned line that fails `accept`; on a bucket whose only pending
line fails `accept`, the function instead persists the cursor unchanged at
0 (frontier.js line 316 writes back `pos` although its own comment says
"advance cursor to EOF"), so the same 17 bytes are re-scanned forever. -/
theorem claimNextBucket_stuck_cursor :
    claimNextBucket c1Buf 0 (fun _ => false) (fun _ => true) = ⟨none, 0⟩
    ∧ c1Buf.length = 17 ∧ (0 : Nat) ≠ c1Buf.length := by
  decide

/-! ### C2 -/

/-- C2: after the per-worker URL lists are appended line-by-line into the
master list, the merge step reduces it to a duplicate-free list whose
members are exactly the union of the per-worker lists. -/
theorem mergeManifestDedup_is_union (parts : List (List String)) :
    (mergeManifestDedup (masterLines parts)).Nodup
    ∧ ∀ u, u ∈ mergeManifestDedup (masterLines parts) ↔ ∃ l ∈ parts, u ∈ l := by
  refine ⟨nodup_dedupFirst _, fun u => ?_⟩
  rw [mergeManifestDedup, mem_dedupFirst, masterLines, List.mem_flatten]

/-! ### C3 -/

/-- C3: with `existence_csv` selected, the Output Gate raises no
`existence_csv` error exactly when an input file exists and either the
first-column URL share is at least 0.6 or the inferred roles contain
`url`; on rejection the `/config` verdict is `valid = false` and the error
list names `existence_csv` with a nonempty reason. -/
theorem comparisonErrors_key (sel : List String) (shape : Shape) :
    ∀ e ∈ comparisonErrors sel shape, e.key = "comparison_csv" := by
  intro e he
  unfold comparisonErrors at he
  split_ifs at he <;>
    simp only [List.mem_singleton, List.not_mem_nil] at he
  · subst he; rfl
  · subst he; rfl

/-- C3: with `existence_csv` selected, the Output Gate raises no
`existence_csv` error exactly when an input file exists and either the
first-column URL share is at least 0.6 or the inferred roles contain
`url`; on rejection the `/config` verdict is `valid = false` and the error
list names `existence_csv` with a nonempty reason. -/
theorem outputGate_existence_csv (sel : List String) (shape : Shape)
    (hsel : "existence_csv" ∈ sel) :
    ((∀ e ∈ validateOutputs sel shape, e.key ≠ "existence_csv") ↔
      (shape.inputExists = true ∧
        (shape.firstColUrlShare ≥ mkRat 3 5 ∨ "url" ∈ shape.inferredRoles)))
    ∧ (¬ (shape.inputExists = true ∧
        (shape.firstColUrlShare ≥ mkRat 3 5 ∨ "url" ∈ shape.inferredRoles)) →
      gateOk sel shape = false ∧
        ∃ e ∈ validateOutputs sel shape, e.key = "existence_csv" ∧ e.reason ≠ "") := by
  cases hin : shape.inputExists with
  | false =>
    have hex : existenceErrors sel shape
        = [⟨"existence_csv", "No input file found for existence check."⟩] := by
      unfold existenceErrors
      rw [if_pos hsel, if_pos hin]
    constructor
    · constructor
      · intro hall
        exfalso
        refine hall ⟨"existence_csv", "No input file found for existence check."⟩
          ?_ rfl
        rw [validateOutputs, hex]
        simp
      · rintro ⟨h, -⟩
        exact absurd h (by decide)
    · intro _
      refine ⟨?_, ⟨"existence_csv", "No input file found for existence check."⟩,
        ?_, rfl, by decide⟩
      · rw [gateOk, validateOutputs, hex]
        simp
      · rw [validateOutputs, hex]
        simp
  | true =>
    have hni : noInputErrors sel shape = [] := by
      unfold noInputErrors
      rw [if_neg (by simp [hin])]
    by_cases hc : "url" ∉ shape.inferredRoles
        ∧ ¬ (shape.firstColUrlShare ≥ mkRat 3 5)
    · have hex : existenceErrors sel shape
          = [⟨"existence_csv", "First column must look like URLs (>=60%)."⟩] := by
        unfold existenceErrors
        rw [if_pos hsel, if_neg (by simp [hin]), if_pos hc]
      constructor
      · constructor
        · intro hall
          exfalso
          refine hall ⟨"existence_csv", "First column must look like URLs (>=60%)."⟩
            ?_ rfl
          rw [validateOutputs, hex]
          simp
        · rintro ⟨-, h | h⟩
          · exact absurd h hc.2
          · exact absurd h hc.1
      · intro _
        refine ⟨?_, ⟨"existence_csv", "First column must look like URLs (>=60%)."⟩,
          ?_, rfl, by decide⟩
        · rw [gateOk, validateOutputs, hex]
          simp
        · rw [validateOutputs, hex]
          simp
    · have hex : existenceErrors sel shape = [] := by
        unfold existenceErrors
        rw [if_pos hsel, if_neg (by simp [hin]), if_neg hc]
      have hrhs : true = true ∧
          (shape.firstColUrlShare ≥ mkRat 3 5 ∨ "url" ∈ shape.inferredRoles) := by
        refine ⟨rfl, ?_⟩
        rcases not_and_or.1 hc with h | h
        · right
          exact not_not.1 h
        · left
          exact not_not.1 h
      constructor
      · constructor
        · intro _
          exact hrhs
        · intro _ e he
          rw [validateOutputs, hex, hni, List.nil_append, List.append_nil] at he
          have hk := comparisonErrors_key sel shape e he
          rw [hk]
          decide
      · intro hn
        exact absurd hrhs hn

/-- C3 witness: the gate at a concrete rejecting instance (no input file,
`existence_csv` selected). -/
theorem outputGate_existence_csv_witness :
    ((∀ e ∈ validateOutputs ["existence_csv"] shapeNone, e.key ≠ "existence_csv") ↔
      (shapeNone.inputExists = true ∧
        (shapeNone.firstColUrlShare ≥ mkRat 3 5 ∨ "url" ∈ shapeNone.inferredRoles)))
    ∧ (¬ (shapeNone.inputExists = true ∧
        (shapeNone.firstColUrlShare ≥ mkRat 3 5 ∨ "url" ∈ shapeNone.inferredRoles)) →
      gateOk ["existence_csv"] shapeNone = false ∧
        ∃ e ∈ validateOutputs ["existence_csv"] shapeNone,
          e.key = "existence_csv" ∧ e.reason ≠ "") :=
  outputGate_existence_csv ["existence_csv"] shapeNone (by decide)

/-! ### C4 -/

/-- C4 counterexample: at first-column URL share exactly 0.6 (which
satisfies the claim's `≥ 0.6`) and second-column share 0 with short
second-column cells, the claim predicts roles `[url, title]`, but the
classifier's strict `col1Url > 0.6` test (telemetry.js line 76) yields the
ambiguous `[]`. -/
theorem sniffCsvShape_ge_boundary :
    (sniffCsvShape (some c4Input)).cols = 2
    ∧ colUrlShare (sniffRows c4Input) 0 ≥ mkRat 3 5
    ∧ colUrlShare (sniffRows c4Input) 1 < mkRat 3 10
    ∧ colAvgLen (sniffRows c4Input) 1 < 120
    ∧ (sniffCsvShape (some c4Input)).inferredRoles = []
    ∧ (sniffCsvShape (some c4Input)).inferredRoles ≠ ["url", "title"] := by
  decide

/-- C4 as amended: for a 2-column classification the roles are
`[url, title]`/`[url, description]` when the first column's URL share is
strictly greater than 0.6 and the second column's is below 0.3 (split on
average second-column length 120), `[title, description]` when both
shares are below 0.3, and `[]` otherwise. -/
theorem sniffCsvShape_two_col (raw : String)
    (h2 : (sniffCsvShape (some raw)).cols = 2) :
    (sniffCsvShape (some raw)).inferredRoles =
      (if colUrlShare (sniffRows raw) 0 > mkRat 3 5
          ∧ colUrlShare (sniffRows raw) 1 < mkRat 3 10 then
        ["url", if colAvgLen (sniffRows raw) 1 < 120 then "title" else "description"]
      else if colUrlShare (sniffRows raw) 0 < mkRat 3 10
          ∧ colUrlShare (sniffRows raw) 1 < mkRat 3 10 then
        ["title", "description"]
      else []) := by
  simp only [sniffCsvShape, sniffShapeOfRaw] at h2 ⊢
  generalize hsl : sniffLines raw = L at h2 ⊢
  cases L with
  | nil =>
    simp [shapeNone] at h2
  | cons l0 ls =>
    simp only at h2 ⊢
    rw [inferRoles, if_neg (by omega), if_pos h2]

/-- C4 witness: the amended decision table evaluated at the concrete
boundary input. -/
theorem sniffCsvShape_two_col_witness :
    (sniffCsvShape (some c4Input)).inferredRoles =
      (if colUrlShare (sniffRows c4Input) 0 > mkRat 3 5
          ∧ colUrlShare (sniffRows c4Input) 1 < mkRat 3 10 then
        ["url", if colAvgLen (sniffRows c4Input) 1 < 120 then "title" else "description"]
      else if colUrlShare (sniffRows c4Input) 0 < mkRat 3 10
          ∧ colUrlShare (sniffRows c4Input) 1 < mkRat 3 10 then
        ["title", "description"]
      else []) :=
  sniffCsvShape_two_col c4Input (by decide)

/-! ### C5 -/

/-- C5: the derived run mode diverges from the claim.  A two-column
title/description input (no URLs anywhere) derives `explicit-urls`
because every `parseCsv` row object carries the three keys
`expectedUrl/expectedTitle/expectedDesc`, so `sniffInputShape` reports
`cols = 3` and run.js line 260 switches `sitemapMode` on; the claim (and
the dead `cols === 2` branch at run.js lines 281-294) says `discovery`.
An existing but empty input file derives `discovery`, since run.js line
309 tests only `!inputExists`; the claim says `no-input`. -/
theorem resolveRunMode_diverges :
    resolveRunMode commaSplit (fun s => some s)
      (some "Home,Welcome to our site.\nAbout,All about us.") false
      = "explicit-urls"
    ∧ resolveRunMode commaSplit (fun s => some s) (some "") false = "discovery" := by
  decide

/-! ### C6 -/

/-- C6: `tryClaim` returns no claim without any create attempt when the
completion marker exists; it makes at most `maxTries` attempts (default
`mcLockTriesDefault = 60`), each retried attempt separated by a sleep
(default `mcLockSleepDefault = 100` ms, `sleeps ≤ attempts`); every
attempt before the last is a transient-busy outcome, so only
transient-busy errors are retried; and when the first non-transient
outcome is `EEXIST` the function returns no claim immediately after that
attempt, with no retry. -/
theorem tryClaim_ledger (doneExists : Bool) (o : Nat → CreateOutcome)
    (maxTries : Nat) :
    (doneExists = true → tryClaim doneExists o maxTries = ⟨false, 0, 0⟩)
    ∧ (tryClaim doneExists o maxTries).attempts ≤ maxTries
    ∧ (tryClaim doneExists o maxTries).sleeps ≤ (tryClaim doneExists o maxTries).attempts
    ∧ (∀ k, k + 1 < (tryClaim doneExists o maxTries).attempts → o k = .transientBusy)
    ∧ (doneExists = false → ∀ k, k < maxTries →
        (∀ j, j < k → o j = .transientBusy) → o k = .eexist →
        tryClaim doneExists o maxTries = ⟨false, k + 1, k⟩) := by
  cases doneExists with
  | true =>
    refine ⟨fun _ => by rw [tryClaim]; rfl, ?_, ?_, ?_, ?_⟩
    · rw [tryClaim]; simp
    · rw [tryClaim]; simp
    · intro k hk
      rw [tryClaim] at hk
      simp at hk
    · intro h; exact absurd h (by decide)
  | false =>
    rw [tryClaim]
    simp only [Bool.false_eq_true, if_false]
    refine ⟨fun h => absurd h (by decide), ?_, ?_, ?_, ?_⟩
    · have := tryClaimGo_attempts_le o maxTries 0
      omega
    · exact tryClaimGo_sleeps_le o maxTries 0
    · exact tryClaimGo_pre_transient o maxTries 0 (fun j hj => absurd hj (by omega))
    · intro _ k hk hpre hke
      exact tryClaimGo_eexist_stops o maxTries 0 k (by omega) (by omega)
        (fun j _ hjk => hpre j hjk) hke

/-- C6 witness: two transient-busy attempts followed by `EEXIST` stop the
loop at the third attempt with two sleeps and no claim. -/
theorem tryClaim_ledger_witness :
    (false = true → tryClaim false
        (fun n => if n < 2 then .transientBusy else .eexist) mcLockTriesDefault
        = ⟨false, 0, 0⟩)
    ∧ (tryClaim false (fun n => if n < 2 then .transientBusy else .eexist)
        mcLockTriesDefault).attempts ≤ mcLockTriesDefault
    ∧ (tryClaim false (fun n => if n < 2 then .transientBusy else .eexist)
        mcLockTriesDefault).sleeps ≤
      (tryClaim false (fun n => if n < 2 then .transientBusy else .eexist)
        mcLockTriesDefault).attempts
    ∧ (∀ k, k + 1 < (tryClaim false
        (fun n => if n < 2 then .transientBusy else .eexist)
        mcLockTriesDefault).attempts →
        (fun n => if n < 2 then (.transientBusy : CreateOutcome) else .eexist) k
          = .transientBusy)
    ∧ (false = false → ∀ k, k < mcLockTriesDefault →
        (∀ j, j < k →
          (fun n => if n < 2 then (.transientBusy : CreateOutcome) else .eexist) j
            = .transientBusy) →
        (fun n => if n < 2 then (.transientBusy : CreateOutcome) else .eexist) k
          = .eexist →
        tryClaim false (fun n => if n < 2 then .transientBusy else .eexist)
          mcLockTriesDefault = ⟨false, k + 1, k⟩) :=
  tryClaim_ledger false (fun n => if n < 2 then .transientBusy else .eexist)
    mcLockTriesDefault

/-! ### C7 -/

/-- C7 counterexample: with 59 stable cycles behind it and an unchanged
snapshot, a worker whose frontier still holds 3 pending lines reaches 60
stable cycles and leaves the work loop through the settled branch
(crawler.js line 976) although `pending.lines = 3 ≠ 0` — the triple
quiescence condition is not met. -/
theorem loopStep_settled_escape :
    (loopStep ⟨0, 59, "7:0:0"⟩ false "7:0:0" 3 0).2 = StepOut.exitSettled
    ∧ (3 : Nat) ≠ 0 := by
  decide

/-- C7 as amended: the quiescence branch fires exactly when the cycle did
no work, pending content and claim locks are both zero, and the updated
counters satisfy `stable ≥ 5` or `idle ≥ 50`; but the loop can also exit
through the settled branch once the snapshot has been stable for 60
consecutive cycles, and that branch only fires when the triple condition
failed (in particular pending content or locks may be nonzero). -/
theorem loopStep_exits (st : LoopSt) (didWork : Bool) (snap : String)
    (pendingLines locks : Nat) :
    ((loopStep st didWork snap pendingLines locks).2 = StepOut.exitQuiescent ↔
      (didWork = false ∧ pendingLines = 0 ∧ locks = 0 ∧
        (5 ≤ nextStable st snap ∨ 50 ≤ nextIdle st)))
    ∧ ((loopStep st didWork snap pendingLines locks).2 = StepOut.exitSettled →
      60 ≤ nextStable st snap ∧
        ¬ (pendingLines = 0 ∧ locks = 0 ∧
          (5 ≤ nextStable st snap ∨ 50 ≤ nextIdle st))) := by
  cases didWork with
  | true => simp [loopStep]
  | false =>
    simp only [loopStep, nextStable, nextIdle, Bool.false_eq_true, if_false]
    by_cases hq : pendingLines = 0 ∧ locks = 0 ∧
        (5 ≤ (if ¬snap = "" ∧ snap = st.lastSnap then st.stableCycles + 1 else 0)
          ∨ 50 ≤ st.idleCycles + 1)
    · rw [if_pos hq]
      exact ⟨⟨fun _ => ⟨by trivial, hq⟩, fun _ => rfl⟩,
        fun h => StepOut.noConfusion h⟩
    · rw [if_neg hq]
      by_cases hs : 60 ≤
          (if ¬snap = "" ∧ snap = st.lastSnap then st.stableCycles + 1 else 0)
      · rw [if_pos hs]
        exact ⟨⟨fun h => StepOut.noConfusion h, fun hrhs => absurd hrhs.2 hq⟩,
          fun _ => ⟨hs, hq⟩⟩
      · rw [if_neg hs]
        exact ⟨⟨fun h => StepOut.noConfusion h, fun hrhs => absurd hrhs.2 hq⟩,
          fun h => StepOut.noConfusion h⟩

/-! ### C8 -/

/-- C8 counterexample: for the catalog `[{titleN: "abc"}]` and expected
title `"ab"`, the source's middle tier (`titleN.startsWith` of the joined
first-4-words string, matcher.js lines 27-28) fires and the row is
matched, while the claim's middle tier (first-4-token-list equality)
yields no hit and its tiering would report the row as not found — the
claim's description of the prefix tier is false of the code. -/
theorem matcher_startsWith_tier :
    (findByPfxThenSimilarity c8Pages "ab" pfxWordsDefault fuzzyThresholdDefault).mtype
      = "prefix"
    ∧ classifyTitleRow c8Pages "ab" pfxWordsDefault fuzzyThresholdDefault
      = RowOutcome.matched "u1"
    ∧ specTokenPfxHits c8Pages "ab" pfxWordsDefault = []
    ∧ findBySpecDescription c8Pages "ab" pfxWordsDefault fuzzyThresholdDefault
      = ⟨"none", [], none⟩ := by
  decide

/-- C8 as amended: matching proceeds in three tiers in order — exact
(normalized-title equality), then string-prefix (the page's normalized
title starts with the string formed by the first K space-separated words
of the expected title), then fuzzy (Jaccard ≥ T keeping only the
top-score candidates, each of which scores at least the threshold); and
the row is classified ambiguous exactly when the selected tier yields more
than one candidate. -/
theorem matcher_three_tiers (pages : List Page) (e : String) (k : Nat)
    (thr : ℚ) :
    (exactHits pages e ≠ [] →
      findByPfxThenSimilarity pages e k thr = ⟨"exact", exactHits pages e, none⟩)
    ∧ (exactHits pages e = [] → pfxHits pages e k ≠ [] →
      findByPfxThenSimilarity pages e k thr = ⟨"prefix", pfxHits pages e k, none⟩)
    ∧ (exactHits pages e = [] → pfxHits pages e k = [] →
        scoredAtLeast pages e thr = [] →
      findByPfxThenSimilarity pages e k thr = ⟨"none", [], none⟩)
    ∧ (exactHits pages e = [] → pfxHits pages e k = [] →
        scoredAtLeast pages e thr ≠ [] →
      (findByPfxThenSimilarity pages e k thr).mtype = "fuzzy"
      ∧ ∀ p ∈ (findByPfxThenSimilarity pages e k thr).items,
          jaccard p.titleN e = bestScore (scoredAtLeast pages e thr)
          ∧ jaccard p.titleN e ≥ thr)
    ∧ (classifyTitleRow pages e k thr = RowOutcome.ambiguous ↔
      ((findByPfxThenSimilarity pages e k thr).mtype ≠ "none"
        ∧ 1 < (findByPfxThenSimilarity pages e k thr).items.length)) := by
  refine ⟨?_, ?_, ?_, ?_, ?_⟩
  · intro hex
    rw [findByPfxThenSimilarity, if_pos (by simpa [List.isEmpty_iff] using hex)]
  · intro hex hpf
    rw [findByPfxThenSimilarity, if_neg (by simp [List.isEmpty_iff, hex]),
      if_pos (by simpa [List.isEmpty_iff] using hpf)]
  · intro hex hpf hsc
    rw [findByPfxThenSimilarity, if_neg (by simp [List.isEmpty_iff, hex]),
      if_neg (by simp [List.isEmpty_iff, hpf]), if_pos (by simp [List.isEmpty_iff, hsc])]
  · intro hex hpf hsc
    rw [findByPfxThenSimilarity, if_neg (by simp [List.isEmpty_iff, hex]),
      if_neg (by simp [List.isEmpty_iff, hpf]), if_neg (by simp [List.isEmpty_iff, hsc])]
    constructor
    · rfl
    · intro p hp
      simp only [List.mem_map, List.mem_filter] at hp
      obtain ⟨x, ⟨hxmem, hxbest⟩, hxp⟩ := hp
      rw [scoredAtLeast, List.mem_filter, List.mem_map] at hxmem
      obtain ⟨⟨q, hq, hqx⟩, hxthr⟩ := hxmem
      have hx2 : x.2 = jaccard p.titleN e := by
        rw [← hqx] at hxp ⊢
        simp at hxp ⊢
        rw [hxp]
      constructor
      · rw [← hx2]
        exact of_decide_eq_true hxbest
      · rw [← hx2]
        exact of_decide_eq_true hxthr
  · rw [classifyTitleRow]
    by_cases hn : (findByPfxThenSimilarity pages e k thr).mtype = "none"
    · simp [hn]
    · by_cases hlen : 1 < (findByPfxThenSimilarity pages e k thr).items.length
      · simp [hn, hlen]
      · simp [hn, hlen]

/-- C8 witness: a two-page catalog sharing one normalized title makes the
exact tier return two candidates and the row is classified ambiguous. -/
theorem matcher_three_tiers_witness :
    (exactHits [⟨"home page", "u1"⟩, ⟨"home page", "u2"⟩] "home page" ≠ [] →
      findByPfxThenSimilarity [⟨"home page", "u1"⟩, ⟨"home page", "u2"⟩]
          "home page" pfxWordsDefault fuzzyThresholdDefault
        = ⟨"exact", exactHits [⟨"home page", "u1"⟩, ⟨"home page", "u2"⟩] "home page",
            none⟩)
    ∧ (exactHits [⟨"home page", "u1"⟩, ⟨"home page", "u2"⟩] "home page" = [] →
      pfxHits [⟨"home page", "u1"⟩, ⟨"home page", "u2"⟩] "home page" pfxWordsDefault ≠ [] →
      findByPfxThenSimilarity [⟨"home page", "u1"⟩, ⟨"home page", "u2"⟩]
          "home page" pfxWordsDefault fuzzyThresholdDefault
        = ⟨"prefix",
            pfxHits [⟨"home page", "u1"⟩, ⟨"home page", "u2"⟩] "home page" pfxWordsDefault,
            none⟩)
    ∧ (exactHits [⟨"home page", "u1"⟩, ⟨"home page", "u2"⟩] "home page" = [] →
      pfxHits [⟨"home page", "u1"⟩, ⟨"home page", "u2"⟩] "home page" pfxWordsDefault = [] →
      scoredAtLeast [⟨"home page", "u1"⟩, ⟨"home page", "u2"⟩] "home page"
          fuzzyThresholdDefault = [] →
      findByPfxThenSimilarity [⟨"home page", "u1"⟩, ⟨"home page", "u2"⟩]
          "home page" pfxWordsDefault fuzzyThresholdDefault = ⟨"none", [], none⟩)
    ∧ (exactHits [⟨"home page", "u1"⟩, ⟨"home page", "u2"⟩] "home page" = [] →
      pfxHits [⟨"home page", "u1"⟩, ⟨"home page", "u2"⟩] "home page" pfxWordsDefault = [] →
      scoredAtLeast [⟨"home page", "u1"⟩, ⟨"home page", "u2"⟩] "home page"
          fuzzyThresholdDefault ≠ [] →
      (findByPfxThenSimilarity [⟨"home page", "u1"⟩, ⟨"home page", "u2"⟩]
          "home page" pfxWordsDefault fuzzyThresholdDefault).mtype = "fuzzy"
      ∧ ∀ p ∈ (findByPfxThenSimilarity [⟨"home page", "u1"⟩, ⟨"home page", "u2"⟩]
          "home page" pfxWordsDefault fuzzyThresholdDefault).items,
          jaccard p.titleN "home page"
            = bestScore (scoredAtLeast [⟨"home page", "u1"⟩, ⟨"home page", "u2"⟩]
                "home page" fuzzyThresholdDefault)
          ∧ jaccard p.titleN "home page" ≥ fuzzyThresholdDefault)
    ∧ (classifyTitleRow [⟨"home page", "u1"⟩, ⟨"home page", "u2"⟩] "home page"
        pfxWordsDefault fuzzyThresholdDefault = RowOutcome.ambiguous ↔
      ((findByPfxThenSimilarity [⟨"home page", "u1"⟩, ⟨"home page", "u2"⟩]
          "home page" pfxWordsDefault fuzzyThresholdDefault).mtype ≠ "none"
        ∧ 1 < (findByPfxThenSimilarity [⟨"home page", "u1"⟩, ⟨"home page", "u2"⟩]
            "home page" pfxWordsDefault fuzzyThresholdDefault).items.length)) :=
  matcher_three_tiers [⟨"home page", "u1"⟩, ⟨"home page", "u2"⟩] "home page"
    pfxWordsDefault fuzzyThresholdDefault

/-! ### C9 -/

/-- C9: the claim as stated is false.  `normalizeUrl` strips only one
trailing slash (normalize.js line 17), so a parsed path ending in two
slashes normalizes to a path ending in one slash, which a second
application strips again: composing `normalizeUrl` with itself differs
from one application on `http://example.com/a//`. -/
theorem normalizeUrl_not_idem :
    (normalizeUrl false "http://example.com/a//").bind (normalizeUrl false)
      ≠ normalizeUrl false "http://example.com/a//" := by decide

/-- C9 (amended): `normalizeUrl` is idempotent on every accepted URL
whose parsed path does not end in two slashes: normalizing the
normalized string again returns it unchanged, for either value of the
`keepPageParam` option. -/
theorem normalizeUrl_idem_amended (keep : Bool) (u : String) (r : UrlRec)
    (hparse : parseUrl u = some r) (hnes : ¬ EndsTwoSlash r.path) :
    (normalizeUrl keep u).bind (normalizeUrl keep) = normalizeUrl keep u := by
  have hc := parseUrl_canon u r hparse
  have hc' := normRec_canon keep r hc
  have hps : parseUrl ⟨serializeUrl (normRec keep r)⟩ = some (normRec keep r) :=
    parse_serialize _ hc' rfl
  have hidem := normRec_idem keep r hc.host_ok hnes
  rw [normalizeUrl, hparse]
  show normalizeUrl keep ⟨serializeUrl (normRec keep r)⟩
    = some ⟨serializeUrl (normRec keep r)⟩
  rw [normalizeUrl, hps]
  show some (⟨serializeUrl (normRec keep (normRec keep r))⟩ : String)
    = some (⟨serializeUrl (normRec keep r)⟩ : String)
  rw [hidem]

/-- C9 witness: the amended idempotence at a concrete accepted URL with a
query and a single trailing slash. -/
theorem normalizeUrl_idem_amended_witness :
    parseUrl "http://example.com/a/?q=1"
      = some ⟨"http".data, "example.com".data, "/a/".data,
          some [("q".data, "1".data)], none⟩
    ∧ ¬ EndsTwoSlash "/a/".data
    ∧ (normalizeUrl false "http://example.com/a/?q=1").bind (normalizeUrl false)
        = normalizeUrl false "http://example.com/a/?q=1" :=
  ⟨by decide, by decide,
    normalizeUrl_idem_amended false "http://example.com/a/?q=1"
      ⟨"http".data, "example.com".data, "/a/".data,
        some [("q".data, "1".data)], none⟩ (by decide) (by decide)⟩

/-! ### C10 -/

/-- Rows are produced only from cell lists of length at least two. -/
theorem rowOfCells_min_cells (cells : List String) (r : Row)
    (h : rowOfCells cells = some r) : 2 ≤ cells.length := by
  match cells with
  | [] => simp [rowOfCells] at h
  | [_] => simp [rowOfCells] at h
  | _ :: _ :: _ => simp

/-- C10: every row `parseCsv` returns comes from a kept input line whose
cell split has at least two cells, with three-plus-cell lines mapped to a
full `{expectedUrl, expectedTitle, expectedDesc}` row, two-cell lines
mapped to a row with empty `expectedUrl`, and shorter splits dropped; in
particular an input whose every kept line splits into at most one cell
parses to the empty row list. -/
theorem parseCsv_drops_short_rows (splitLine : String → List String)
    (raw : String) (hasHeader : String) :
    (∀ r ∈ parseCsv splitLine raw hasHeader,
      ∃ l ∈ (csvLines raw).map String.mk,
        2 ≤ (splitLine l).length ∧ rowOfCells (splitLine l) = some r)
    ∧ (∀ u t d rest, rowOfCells (u :: t :: d :: rest)
        = some ⟨⟨trimL u.data⟩, ⟨trimL t.data⟩, ⟨trimL d.data⟩⟩)
    ∧ (∀ t d, rowOfCells [t, d] = some ⟨"", ⟨trimL t.data⟩, ⟨trimL d.data⟩⟩)
    ∧ (∀ cells : List String, cells.length ≤ 1 → rowOfCells cells = none)
    ∧ ((∀ l ∈ (csvLines raw).map String.mk, (splitLine l).length ≤ 1) →
      parseCsv splitLine raw hasHeader = []) := by
  refine ⟨?_, fun u t d rest => rfl, fun t d => rfl, ?_, ?_⟩
  · intro r hr
    rw [parseCsv] at hr
    cases hls : (csvLines raw).map String.mk with
    | nil => rw [hls] at hr; exact absurd hr (by simp)
    | cons l0 ls =>
      rw [hls] at hr
      simp only [List.mem_filterMap, List.mem_map] at hr
      obtain ⟨cells, hcells, hrow⟩ := hr
      obtain ⟨l, hl, hcl⟩ := hcells
      refine ⟨l, ?_, ?_, ?_⟩
      · exact List.mem_of_mem_drop hl
      · rw [hcl]; exact rowOfCells_min_cells _ _ hrow
      · rw [hcl]; exact hrow
  · intro cells hlen
    match cells with
    | [] => rfl
    | [_] => rfl
    | _ :: _ :: _ => simp at hlen
  · intro hall
    rw [parseCsv]
    cases hls : (csvLines raw).map String.mk with
    | nil => rfl
    | cons l0 ls =>
      simp only []
      rw [List.filterMap_eq_nil_iff]
      intro cells hcells
      rw [List.mem_map] at hcells
      obtain ⟨l, hl, hcl⟩ := hcells
      have hl' : l ∈ (csvLines raw).map String.mk := by
        rw [hls]; exact List.mem_of_mem_drop hl
      have := hall l hl'
      rw [← hcl]
      match hm : splitLine l with
      | [] => rfl
      | [_] => rfl
      | a :: b :: rest => rw [hm] at this; simp at this

/-- C10 witness: a two-line one-column file under a one-cell splitter
parses to the empty row list. -/
theorem parseCsv_drops_short_rows_witness :
    (∀ r ∈ parseCsv (fun l => [l]) "u1\nu2" "auto",
      ∃ l ∈ (csvLines "u1\nu2").map String.mk,
        2 ≤ ((fun (l : String) => [l]) l).length
        ∧ rowOfCells ((fun (l : String) => [l]) l) = some r)
    ∧ (∀ u t d rest, rowOfCells (u :: t :: d :: rest)
        = some ⟨⟨trimL u.data⟩, ⟨trimL t.data⟩, ⟨trimL d.data⟩⟩)
    ∧ (∀ t d, rowOfCells [t, d] = some ⟨"", ⟨trimL t.data⟩, ⟨trimL d.data⟩⟩)
    ∧ (∀ cells : List String, cells.length ≤ 1 → rowOfCells cells = none)
    ∧ ((∀ l ∈ (csvLines "u1\nu2").map String.mk,
        ((fun (l : String) => [l]) l).length ≤ 1) →
      parseCsv (fun l => [l]) "u1\nu2" "auto" = []) :=
  parseCsv_drops_short_rows (fun l => [l]) "u1\nu2" "auto"

end MetaChecker
